import Mathlib

/-!
Verification of the read-side MPHF evaluator (src/c/mph.c) against its
natural-language specification.

The C code is shallowly embedded: machine words are natural numbers, with
explicit reductions modulo 2^64 and explicit truncations to 32-bit or
64-bit signed integers exactly where the C code performs such conversions;
arrays are lists of words, and an out-of-bounds read (undefined behaviour
in C) is modelled as reading 0.  The external SpookyHash primitive is out
of scope of the core (spec section 1) and is modelled as an abstract
parameter bundled in a SpookyModel.  The struct layout of the index comes
from mph.h, which is not part of the sources; its field list is taken from
the uses in mph.c and its field widths from the spec (section 3).
-/

namespace MphC

/-- Count of set bits among the low 64 bits; models __builtin_popcountll
restricted to a 64-bit operand (its argument in the code is always below
2^63 because it has been masked with 0x5555555555555555). -/
def bitCount (w x : Nat) : Nat :=
  (List.range w).countP (fun i => x.testBit i)

/-- Models _count_nonzero_pairs from mph.c: popcount of the 2-bit groups
folded to their low bit. -/
def countNonzeroPairsWord (x : Nat) : Nat :=
  bitCount 64 ((x ||| (x >>> 1)) &&& 0x5555555555555555)

/-- Conversion of a 64-bit unsigned value to a C int (32-bit, two's
complement): truncate to 32 bits and reinterpret as signed. -/
def toInt32 (v : Nat) : Int :=
  if v % 2 ^ 32 < 2 ^ 31 then ((v % 2 ^ 32 : Nat) : Int)
  else ((v % 2 ^ 32 : Nat) : Int) - 2 ^ 32

/-- Array indexing with a C int index, as used for
edge_offset_and_seed[chunk] and for array[block] in count_nonzero_pairs;
an out-of-range access is undefined behaviour in C and is modelled as
reading 0. -/
def dirGet (l : List Nat) (i : Int) : Nat :=
  if i < 0 then 0 else l.getD i.toNat 0

/-- Models count_nonzero_pairs from mph.c: the rank primitive, counting
non-zero 2-bit groups over the vertex range [start, fin) of the packed
label array.  block and end_block are C ints, so the uint64_t quotients
start / 32 and fin / 32 are truncated through toInt32 exactly as
`int block = start / 32` does; start_offset and end_offset are int as
well, but they are always below 32 so the conversion is the identity and
they are kept as naturals.  The C while loop over interior words is
rendered as a sum over (end_block - block).toNat consecutive int block
indices (the post-increment of block past INT_MAX would be signed
overflow, undefined behaviour in C, modelled as exact Int increment).
The trailing partial word is read at the value block holds after the
loop: end_block when the loop was entered, and otherwise the unchanged
loop start index — that is, their maximum. -/
def countNonzeroPairs (start fin : Nat) (array : List Nat) : Nat :=
  let block : Int := toInt32 (start / 32)
  let end_block : Int := toInt32 (fin / 32)
  let start_offset := start % 32
  let end_offset := fin % 32
  if block = end_block then
    countNonzeroPairsWord ((dirGet array block &&& ((1 <<< (end_offset * 2)) - 1)) >>> (start_offset * 2))
  else
    (if start_offset = 0 then 0
     else countNonzeroPairsWord (dirGet array block >>> (start_offset * 2))) +
    ((List.range (end_block - (if start_offset = 0 then block else block + 1)).toNat).map
      (fun (i : Nat) => countNonzeroPairsWord
        (dirGet array ((if start_offset = 0 then block else block + 1) + (i : Int))))).sum +
    (if end_offset = 0 then 0
     else countNonzeroPairsWord
       (dirGet array (max (if start_offset = 0 then block else block + 1) end_block) &&&
         ((1 <<< (end_offset * 2)) - 1)))

/-- Proof-side variant of the rank computation in which the block indices
are kept as exact (untruncated) naturals.  countNonzeroPairs coincides
with it as long as the block indices fit in a C int, i.e. whenever
fin < 2^36 (countNonzeroPairs_int_safe below); on larger vertex indices
the two differ, which is exactly the int-truncation behaviour of the
source. -/
def countNonzeroPairsN (start fin : Nat) (array : List Nat) : Nat :=
  let block := start / 32
  let end_block := fin / 32
  let start_offset := start % 32
  let end_offset := fin % 32
  if block = end_block then
    countNonzeroPairsWord ((array.getD block 0 &&& ((1 <<< (end_offset * 2)) - 1)) >>> (start_offset * 2))
  else
    (if start_offset = 0 then 0
     else countNonzeroPairsWord (array.getD block 0 >>> (start_offset * 2))) +
    ((List.range' (if start_offset = 0 then block else block + 1)
        (end_block - (if start_offset = 0 then block else block + 1))).map
      (fun b => countNonzeroPairsWord (array.getD b 0))).sum +
    (if end_offset = 0 then 0
     else countNonzeroPairsWord (array.getD end_block 0 &&& ((1 <<< (end_offset * 2)) - 1)))

/-- Spec-side predicate: vertex i has a non-zero 2-bit label, where the
label of vertex i is bits 2i and 2i+1, low-to-high, of a packed array of
64-bit words holding 32 groups each. -/
def groupNZ (words : List Nat) (i : Nat) : Bool :=
  ((words.getD (i / 32) 0 >>> (2 * (i % 32))) &&& 3) != 0

/-- Spec-side rank: the number of positions i in [start, fin) whose 2-bit
group is not exactly 0b00 (spec sections 4.3 and 8). -/
def rankSpec (start fin : Nat) (words : List Nat) : Nat :=
  (List.range' start (fin - start)).countP (fun i => groupNZ words i)

/-- Proof-side mask with k one-bits at the even positions; msk 32 is the
constant 0x5555555555555555 of the code. -/
def msk : Nat → Nat
  | 0 => 0
  | k + 1 => 4 * msk k + 1

/-- Proof-side counter of the non-zero low 2-bit groups among the first k
groups of x. -/
def pairCount : Nat → Nat → Nat
  | 0, _ => 0
  | k + 1, x => (if x % 4 = 0 then 0 else 1) + pairCount k (x / 4)

/-- Conversion of a 64-bit unsigned value to a C int64_t (two's
complement reinterpretation). -/
def toInt64 (v : Nat) : Int :=
  if v % 2 ^ 64 < 2 ^ 63 then ((v % 2 ^ 64 : Nat) : Int)
  else ((v % 2 ^ 64 : Nat) : Int) - 2 ^ 64

/-- Conversion of a C signed integer value to uint64_t (reduction modulo
2^64, which sign-extends negative values). -/
def u64OfInt (i : Int) : Nat := (i % (2 ^ 64 : Int)).toNat

/-- OFFSET_MASK from mph.c: UINT64_C(-1) >> 8, the low-56-bit field. -/
def OFFSET_MASK : Nat := 2 ^ 56 - 1

/-- The complement ~OFFSET_MASK on 64 bits: the high 8 seed bits. -/
def NOT_OFFSET_MASK : Nat := 2 ^ 64 - 2 ^ 56

/-- C_TIMES_256 from mph.c: (int)(floor((1.09 + 0.01) * 256)) = 281.
The double computation (1.09 + 0.01) * 256 evaluates to slightly above
281.6, whose floor is 281, the same value as floor(1.10 * 256). -/
def C_TIMES_256 : Nat := 281

/-- Models vertex_offset from mph.c.  The multiplication is performed in
uint64_t arithmetic, hence the explicit reduction modulo 2^64. -/
def vertex_offset (edge_offset_seed : Nat) : Nat :=
  (((edge_offset_seed &&& OFFSET_MASK) * C_TIMES_256) % 2 ^ 64) >>> 8

/-- Models get_2bit_value from mph.c. -/
def get_2bit_value (array : List Nat) (pos : Nat) : Nat :=
  (array.getD (pos * 2 / 64) 0 >>> (pos * 2 % 64)) &&& 3

/-- Number of significant bits of a 64-bit value (its bit length). -/
def bitLength64 (n : Nat) : Nat :=
  (List.range 64).countP (fun i => decide (2 ^ i ≤ n))

/-- Models __builtin_clzll on a 64-bit operand: count of leading zeros,
64 minus the bit length.  The builtin is undefined at 0; the code only
applies it to non-zero operands. -/
def clzll (n : Nat) : Nat := 64 - bitLength64 n

/-- The multiply-shift range reduction applied to one hash word inside
triple_to_equation, with nvU the uint64_t image of num_variables. -/
def tteWord (h nvU : Nat) : Nat :=
  (((h &&& ((1 <<< clzll nvU) - 1)) * nvU) % 2 ^ 64) >>> clzll nvU

/-- The external hash primitive (SpookyHash), out of scope of the core:
an abstract full hash over key bytes and an abstract rehash over an
existing 4-word state (spec section 6). -/
structure SpookyModel where
  short : List Nat → Nat → Fin 4 → Nat
  shortRehash : (Fin 4 → Nat) → Nat → Fin 4 → Nat

/-- Models triple_to_equation from mph.c.  num_variables is a C int; it
is converted to uint64_t by the multiplication, and the results are
stored into the int array e. -/
def triple_to_equation (rehash : (Fin 4 → Nat) → Nat → Fin 4 → Nat)
    (triple : Fin 4 → Nat) (seed : Nat) (num_variables : Int) : Fin 3 → Int :=
  let hash := rehash triple seed
  fun i => toInt32 (tteWord (hash (Fin.castLE (by decide) i)) (u64OfInt num_variables))

/-- Modelled from the spec: the index struct declared in mph.h (absent
from the sources).  The field list is exactly the set of fields mph.c
uses; widths follow spec section 3 (key count, seeds and array words are
u64, chunk_shift is a u32). -/
structure mph where
  size : Nat
  chunk_shift : Nat
  global_seed : Nat
  edge_offset_and_seed_length : Nat
  edge_offset_and_seed : List Nat
  array_length : Nat
  array : List Nat

/-- The chunk index as both evaluate entry points compute it:
h[0] >> chunk_shift stored into a C int (line: const int chunk = ...). -/
def chunkOfHash (h0 shiftW : Nat) : Int := toInt32 (h0 >>> shiftW)

/-- num_variables as computed at directory position c: the uint64_t
difference of the two decoded vertex offsets, stored into a C int. -/
def nvAt (m : mph) (c : Int) : Int :=
  toInt32 ((vertex_offset (dirGet m.edge_offset_and_seed (c + 1)) + 2 ^ 64
    - vertex_offset (dirGet m.edge_offset_and_seed c)) % 2 ^ 64)

/-- The int triple e computed from the hash at directory position c. -/
def eAt (S : SpookyModel) (m : mph) (h : Fin 4 → Nat) (c : Int) : Fin 3 → Int :=
  triple_to_equation S.shortRehash h ((dirGet m.edge_offset_and_seed c) &&& NOT_OFFSET_MASK) (nvAt m c)

/-- The sum-mod-3 selector of the assigned vertex. -/
def selAt (S : SpookyModel) (m : mph) (h : Fin 4 → Nat) (c : Int) : Nat :=
  (get_2bit_value m.array ((u64OfInt (eAt S m h c 0) + vertex_offset (dirGet m.edge_offset_and_seed c)) % 2 ^ 64) +
   get_2bit_value m.array ((u64OfInt (eAt S m h c 1) + vertex_offset (dirGet m.edge_offset_and_seed c)) % 2 ^ 64) +
   get_2bit_value m.array ((u64OfInt (eAt S m h c 2) + vertex_offset (dirGet m.edge_offset_and_seed c)) % 2 ^ 64)) % 3

/-- The selected vertex chunk_offset + e[...], the end argument of the
final rank call. -/
def asgnAt (S : SpookyModel) (m : mph) (h : Fin 4 → Nat) (c : Int) : Nat :=
  (vertex_offset (dirGet m.edge_offset_and_seed c) +
    u64OfInt (eAt S m h c ⟨selAt S m h c, Nat.mod_lt _ (by decide)⟩)) % 2 ^ 64

/-- The shared body of get_byte_array and get_uint64_t (their code after
the initial spooky_short call is textually identical in mph.c), acting on
the computed 4-word hash. -/
def evalBody (S : SpookyModel) (m : mph) (h : Fin 4 → Nat) : Int :=
  let chunk := chunkOfHash (h 0) m.chunk_shift
  if nvAt m chunk = 0 then -1
  else
    toInt64 ((((dirGet m.edge_offset_and_seed chunk) &&& OFFSET_MASK) +
      countNonzeroPairs (vertex_offset (dirGet m.edge_offset_and_seed chunk))
        (asgnAt S m h chunk) m.array) % 2 ^ 64)

/-- Models get_byte_array from mph.c; the key is its byte sequence (the
C length argument is the length of the list). -/
def get_byte_array (S : SpookyModel) (m : mph) (key : List Nat) : Int :=
  evalBody S m (S.short key m.global_seed)

/-- The 8 bytes of the native (little-endian) in-memory representation of
a uint64_t key, as spooky_short reads them through &key. -/
def u64Bytes (k : Nat) : List Nat :=
  (List.range 8).map (fun i => (k >>> (8 * i)) % 256)

/-- Models get_uint64_t from mph.c: the same body, hashing the 8 bytes of
the key value. -/
def get_uint64_t (S : SpookyModel) (m : mph) (key : Nat) : Int :=
  evalBody S m (S.short (u64Bytes key) m.global_seed)

/-- The 4-word hash of a key under the index global seed. -/
def hashOf (S : SpookyModel) (m : mph) (key : List Nat) : Fin 4 → Nat :=
  S.short key m.global_seed

/-- The mathematical (untruncated) chunk index of a key:
h[0] >> chunk_shift as a natural number. -/
def chunkNat (S : SpookyModel) (m : mph) (key : List Nat) : Nat :=
  hashOf S m key 0 >>> m.chunk_shift

/-- Decoded vertex offset of directory entry c (natural-number index). -/
def voAtN (m : mph) (c : Nat) : Nat :=
  vertex_offset (m.edge_offset_and_seed.getD c 0)

/-- The vertex the evaluation selects for a key (chunk offset plus the
sum-mod-3 choice among the key's triple). -/
def asgnOf (S : SpookyModel) (m : mph) (key : List Nat) : Nat :=
  asgnAt S m (hashOf S m key) (chunkOfHash (hashOf S m key 0) m.chunk_shift)

/-- Little-endian byte-sequence decoding used to model reading integer
fields from the input stream. -/
def leBytesToNat (bs : List Nat) : Nat :=
  bs.foldr (fun b acc => b % 256 + 256 * acc) 0

/-- Models one read(h, buf, n) into a calloc-zeroed buffer: POSIX read
delivers min(n, available) bytes and mph.c ignores its return value, so
missing bytes are left as the zero fill of the destination. -/
def readBytes (n : Nat) (s : List Nat) : List Nat × List Nat :=
  (s.take n ++ List.replicate (n - s.length) 0, s.drop n)

/-- Reading one u64 field. -/
def readU64 (s : List Nat) : Nat × List Nat :=
  (leBytesToNat (readBytes 8 s).1, (readBytes 8 s).2)

/-- Reading an array of n u64 words (a single read of 8n bytes in C). -/
def readWords : Nat → List Nat → List Nat × List Nat
  | 0, s => ([], s)
  | n + 1, s =>
    ((readU64 s).1 :: (readWords n (readU64 s).2).1, (readWords n (readU64 s).2).2)

/-- Models load_mph from mph.c.  No return value of read or calloc is
checked, so the function is total: it always returns an index.  The
uninitialized stack temporary t is modelled as zero-filled on a short
read, matching the calloc-zeroed heap destinations. -/
def load_mph (s : List Nat) : mph :=
  let p1 := readU64 s
  let p2 := readU64 p1.2
  let p3 := readU64 p2.2
  let p4 := readU64 p3.2
  let p5 := readWords p4.1 p4.2
  let p6 := readU64 p5.2
  let p7 := readWords p6.1 p6.2
  ⟨p1.1, p2.1 % 2 ^ 32, p3.1, p4.1, p5.1, p6.1, p7.1⟩

/-- Modelled from the spec: reading one u64 field with the truncation
check the Loader contract of spec section 4.1 requires. -/
def readU64c (s : List Nat) : Option (Nat × List Nat) :=
  if 8 ≤ s.length then some (leBytesToNat (s.take 8), s.drop 8) else none

/-- Modelled from the spec: reading an array of n u64 words with the
truncation check of spec section 4.1. -/
def readWordsC : Nat → List Nat → Option (List Nat × List Nat)
  | 0, s => some ([], s)
  | n + 1, s => do
    let p ← readU64c s
    let q ← readWordsC n p.2
    pure (p.1 :: q.1, q.2)

/-- Modelled from the spec: the Loader contract of spec sections 4.1 and
7, which fails (here: returns none) when the stream ends before a
declared field or array is fully read; allocation failure is outside the
model (memory is unbounded here). -/
def loadChecked (s : List Nat) : Option mph := do
  let p1 ← readU64c s
  let p2 ← readU64c p1.2
  let p3 ← readU64c p2.2
  let p4 ← readU64c p3.2
  let p5 ← readWordsC p4.1 p4.2
  let p6 ← readU64c p5.2
  let p7 ← readWordsC p6.1 p6.2
  pure ⟨p1.1, p2.1 % 2 ^ 32, p3.1, p4.1, p5.1, p6.1, p7.1⟩

/-- A trivial hash model used for concrete instances: every key hashes to
the zero state, and rehashing is the identity. -/
def S0 : SpookyModel := ⟨fun _ _ _ => 0, fun t _ => t⟩

/-- A concrete index whose two directory entries decode to vertex offsets
0 and 2^32: their difference truncates to int 0. -/
def mC4 : mph := ⟨1, 0, 0, 2, [0, 3912852768], 0, []⟩

/-- Hash model for the round-trip instance: the hash words are the first
key byte scaled to 2^61, and rehashing is the identity. -/
def SW1 : SpookyModel := ⟨fun k _ _ => k.headD 0 * 2 ^ 61, fun t _ => t⟩

/-- A concrete single-chunk index over two keys: directory entries 0 and
2 (vertex offsets 0 and 2), both vertex labels set to 1. -/
def mW1 : mph := ⟨2, 63, 0, 2, [0, 2], 1, [5]⟩

/-- The two keys of the round-trip instance. -/
def keysW1 : List (List Nat) := [[0], [1]]

/-! ## Lemmas on the word-level popcount trick -/

theorem bitCount_zero (x : Nat) : bitCount 0 x = 0 := rfl

theorem bitCount_succ (w x : Nat) : bitCount (w + 1) x = x % 2 + bitCount w (x / 2) := by
  have h : bitCount (w + 1) x =
      List.countP (fun i => x.testBit i) (List.map Nat.succ (List.range w)) +
        (if x.testBit 0 then 1 else 0) := by
    simp [bitCount, List.range_succ_eq_map, List.countP_cons]
  rw [h, List.countP_map]
  have h2 : ((fun i => x.testBit i) ∘ Nat.succ) = fun i => (x / 2).testBit i := by
    funext i
    simp [Function.comp, Nat.testBit_succ]
  rw [h2]
  rcases Nat.mod_two_eq_zero_or_one x with hx | hx
  · have hb : x.testBit 0 = false := by simp [Nat.testBit_zero, hx]
    simp [bitCount, hb, hx]
  · have hb : x.testBit 0 = true := by simp [Nat.testBit_zero, hx]
    simp [bitCount, hb, hx]
    omega

theorem shiftRight_one_div (x : Nat) : x >>> 1 = x / 2 := by
  have := Nat.shiftRight_eq_div_pow x 1
  simpa using this

theorem bitCount_msk : ∀ (k : Nat) (x : Nat),
    bitCount (2 * k) ((x ||| (x >>> 1)) &&& msk k) = pairCount k x := by
  intro k
  induction k with
  | zero => intro x; simp [msk, pairCount, bitCount]
  | succ k ih =>
    intro x
    have hyd : x >>> 1 = x / 2 := shiftRight_one_div x
    set y := x ||| (x >>> 1) with hy
    set z := y &&& msk (k + 1) with hz
    have hmsk : msk (k + 1) = 4 * msk k + 1 := rfl
    -- low bit of z is the low bit of y
    have hz1 : z &&& 1 = y &&& 1 := by
      rw [hz, hmsk, Nat.and_assoc]
      have h1 : (4 * msk k + 1) &&& 1 = 1 := by
        rw [Nat.and_one_is_mod]; omega
      rw [h1]
    have hzm : z % 2 = y % 2 := by
      rw [← Nat.and_one_is_mod, ← Nat.and_one_is_mod, hz1]
    -- z / 2 and its low bit
    have hz2 : z / 2 = (y / 2) &&& (2 * msk k) := by
      rw [hz, hmsk, Nat.and_div_two]
      congr 1
      omega
    have hz2m : (z / 2) % 2 = 0 := by
      rw [← Nat.and_one_is_mod, hz2, Nat.and_assoc]
      have h0 : (2 * msk k) &&& 1 = 0 := by
        rw [Nat.and_one_is_mod]; omega
      rw [h0, Nat.and_zero]
    have hz4 : z / 2 / 2 = (y / 4) &&& msk k := by
      rw [hz2, Nat.and_div_two]
      have h4 : (2 * msk k) / 2 = msk k := by omega
      rw [h4, Nat.div_div_eq_div_mul]
    -- y / 4 is the folded value of x / 4
    have hy4 : y / 4 = (x / 4) ||| ((x / 4) >>> 1) := by
      calc y / 4 = y / 2 / 2 := by rw [Nat.div_div_eq_div_mul]
        _ = (x / 2 ||| x / 2 / 2) / 2 := by rw [hy, hyd, Nat.or_div_two]
        _ = (x / 2 / 2) ||| (x / 2 / 2 / 2) := by rw [Nat.or_div_two]
        _ = (x / 4) ||| ((x / 4) >>> 1) := by
            rw [shiftRight_one_div]
            congr 1
            · omega
            · omega
    -- low bit of y decides whether the low 2-bit group of x is non-zero
    have hym : y % 2 = if x % 4 = 0 then 0 else 1 := by
      have hor := Nat.or_mod_two_eq_one (a := x) (b := x >>> 1)
      rw [hyd] at hor
      have hiff : y % 2 = 1 ↔ (x % 2 = 1 ∨ x / 2 % 2 = 1) := hor
      have hy2 : y % 2 = 0 ∨ y % 2 = 1 := Nat.mod_two_eq_zero_or_one y
      by_cases hx4 : x % 4 = 0
      · rw [if_pos hx4]
        rcases hy2 with h | h
        · exact h
        · exfalso
          rcases hiff.mp h with h1 | h1 <;> omega
      · rw [if_neg hx4]
        rcases hy2 with h | h
        · exfalso
          have hd : x % 2 = 1 ∨ x / 2 % 2 = 1 := by omega
          have := hiff.mpr hd
          omega
        · exact h
    -- assemble
    have hstep : bitCount (2 * (k + 1)) z = z % 2 + ((z / 2) % 2 + bitCount (2 * k) (z / 2 / 2)) := by
      rw [show 2 * (k + 1) = (2 * k + 1) + 1 by omega, bitCount_succ, bitCount_succ]
    rw [hstep, hzm, hz2m, hz4, hy4, ih, hym]
    have hpc : pairCount (k + 1) x = (if x % 4 = 0 then 0 else 1) + pairCount k (x / 4) := rfl
    rw [hpc]
    omega

theorem countNonzeroPairsWord_eq (x : Nat) : countNonzeroPairsWord x = pairCount 32 x := by
  have hm : msk 32 = 0x5555555555555555 := by decide
  have := bitCount_msk 32 x
  rw [hm] at this
  exact this

/-! ## pairCount algebra -/

theorem pairCount_zero_val : ∀ k, pairCount k 0 = 0
  | 0 => rfl
  | k + 1 => by simp [pairCount, pairCount_zero_val k]

theorem pairCount_add (a b x : Nat) :
    pairCount (a + b) x = pairCount a x + pairCount b (x / 4 ^ a) := by
  induction a generalizing x with
  | zero => simp [pairCount]
  | succ a ih =>
    have h1 : a + 1 + b = (a + b) + 1 := by omega
    rw [h1]
    show (if x % 4 = 0 then 0 else 1) + pairCount (a + b) (x / 4) = _
    rw [ih]
    have h2 : x / 4 / 4 ^ a = x / 4 ^ (a + 1) := by
      rw [Nat.div_div_eq_div_mul, pow_succ, mul_comm]
    rw [h2]
    show _ = (if x % 4 = 0 then 0 else 1) + pairCount a (x / 4) + pairCount (b) (x / 4 ^ (a + 1))
    omega

theorem pairCount_mod (k : Nat) : ∀ x, pairCount k (x % 4 ^ k) = pairCount k x := by
  induction k with
  | zero => intro x; rfl
  | succ k ih =>
    intro x
    show (if (x % 4 ^ (k + 1)) % 4 = 0 then 0 else 1) + pairCount k ((x % 4 ^ (k + 1)) / 4) =
      (if x % 4 = 0 then 0 else 1) + pairCount k (x / 4)
    have h1 : x % 4 ^ (k + 1) % 4 = x % 4 :=
      Nat.mod_mod_of_dvd x ⟨4 ^ k, by ring⟩
    have h2 : x % 4 ^ (k + 1) / 4 = (x / 4) % 4 ^ k := by
      have h4 : (4 : Nat) ^ (k + 1) = 4 * 4 ^ k := by ring
      rw [h4, Nat.mod_mul_right_div_self]
    rw [h1, h2, ih]

theorem pairCount_le (k : Nat) : ∀ x, pairCount k x ≤ k := by
  induction k with
  | zero => intro x; exact Nat.le_refl 0
  | succ k ih =>
    intro x
    show (if x % 4 = 0 then 0 else 1) + pairCount k (x / 4) ≤ k + 1
    have := ih (x / 4)
    by_cases h : x % 4 = 0 <;> simp [h] <;> omega

theorem and3_mod (x : Nat) : x &&& 3 = x % 4 := by
  have h := Nat.and_pow_two_sub_one_eq_mod x 2
  norm_num at h
  exact h

/-! ## One in-word vertex range versus the spec-side label count -/

theorem countP_block (array : List Nat) : ∀ (len s B : Nat), s + len ≤ 32 →
    (List.range' (32 * B + s) len).countP (fun i => groupNZ array i) =
      pairCount len ((array.getD B 0) / 4 ^ s) := by
  intro len
  induction len with
  | zero => intro s B _; simp [pairCount]
  | succ len ih =>
    intro s B hs
    rw [List.range'_succ, List.countP_cons]
    have h1 : 32 * B + s + 1 = 32 * B + (s + 1) := by omega
    rw [h1, ih (s + 1) B (by omega)]
    have hdiv : (32 * B + s) / 32 = B := by omega
    have hmod : (32 * B + s) % 32 = s := by omega
    have e1 : (array.getD B 0) >>> (2 * s) = array.getD B 0 / 4 ^ s := by
      rw [Nat.shiftRight_eq_div_pow]
      congr 1
      rw [pow_mul]
      norm_num
    have hgnz : groupNZ array (32 * B + s) = ((array.getD B 0 / 4 ^ s) % 4 != 0) := by
      unfold groupNZ
      rw [hdiv, hmod, e1, and3_mod]
    rw [hgnz]
    have hdd : array.getD B 0 / 4 ^ s / 4 = array.getD B 0 / 4 ^ (s + 1) := by
      rw [Nat.div_div_eq_div_mul, pow_succ]
    have hpc : pairCount (len + 1) (array.getD B 0 / 4 ^ s) =
        (if (array.getD B 0 / 4 ^ s) % 4 = 0 then 0 else 1) +
          pairCount len (array.getD B 0 / 4 ^ (s + 1)) := by
      show (if (array.getD B 0 / 4 ^ s) % 4 = 0 then 0 else 1) +
          pairCount len (array.getD B 0 / 4 ^ s / 4) = _
      rw [hdd]
    rw [hpc]
    generalize array.getD B 0 = w
    by_cases h : w / 4 ^ s % 4 = 0
    · have hb : ((w / 4 ^ s % 4 != 0) : Bool) = false := by simp [h]
      rw [hb, if_pos h]
      simp
    · have hb : ((w / 4 ^ s % 4 != 0) : Bool) = true := by simp [h]
      rw [hb, if_neg h]
      simp
      omega

theorem pairCount32_mod (w s e : Nat) (hse : s ≤ e) (he : e ≤ 32) :
    pairCount 32 ((w % 4 ^ e) / 4 ^ s) = pairCount (e - s) (w / 4 ^ s) := by
  have h32 : (32 : Nat) = (e - s) + (32 - (e - s)) := by omega
  rw [h32, pairCount_add]
  have h1 : (w % 4 ^ e) / 4 ^ s / 4 ^ (e - s) = 0 := by
    rw [Nat.div_div_eq_div_mul, ← pow_add]
    have hse2 : s + (e - s) = e := by omega
    rw [hse2]
    exact Nat.div_eq_of_lt (Nat.mod_lt w (by positivity))
  rw [h1, pairCount_zero_val]
  have h2 : (w % 4 ^ e) / 4 ^ s = (w / 4 ^ s) % 4 ^ (e - s) := by
    have h4 : (4 : Nat) ^ e = 4 ^ s * 4 ^ (e - s) := by
      rw [← pow_add]
      congr 1
      omega
    rw [h4, Nat.mod_mul_right_div_self]
  rw [h2, pairCount_mod]
  omega

/-! ## The three word shapes used by count_nonzero_pairs -/

theorem cnpw_same_block (w s e : Nat) (hse : s ≤ e) (he : e ≤ 32) :
    countNonzeroPairsWord ((w &&& ((1 <<< (e * 2)) - 1)) >>> (s * 2)) =
      pairCount (e - s) (w / 4 ^ s) := by
  have e1 : (1 : Nat) <<< (e * 2) = 2 ^ (2 * e) := by
    rw [Nat.one_shiftLeft]
    congr 1
    omega
  have e2 : w &&& (2 ^ (2 * e) - 1) = w % 4 ^ e := by
    rw [Nat.and_pow_two_sub_one_eq_mod]
    congr 1
    rw [pow_mul]
    norm_num
  have e3 : (w % 4 ^ e) >>> (s * 2) = (w % 4 ^ e) / 4 ^ s := by
    rw [Nat.shiftRight_eq_div_pow]
    congr 1
    rw [show s * 2 = 2 * s by omega, pow_mul]
    norm_num
  rw [e1, e2, e3, countNonzeroPairsWord_eq, pairCount32_mod w s e hse he]

theorem cnpw_start_block (w s : Nat) (hw : w < 2 ^ 64) (hs : s ≤ 32) :
    countNonzeroPairsWord (w >>> (s * 2)) = pairCount (32 - s) (w / 4 ^ s) := by
  have e1 : w >>> (s * 2) = w / 4 ^ s := by
    rw [Nat.shiftRight_eq_div_pow]
    congr 1
    rw [show s * 2 = 2 * s by omega, pow_mul]
    norm_num
  rw [e1, countNonzeroPairsWord_eq]
  have hadd := pairCount_add (32 - s) s (w / 4 ^ s)
  have h32 : (32 - s) + s = 32 := by omega
  rw [h32] at hadd
  have h1 : w / 4 ^ s / 4 ^ (32 - s) = 0 := by
    rw [Nat.div_div_eq_div_mul, ← pow_add]
    have hs2 : s + (32 - s) = 32 := by omega
    rw [hs2]
    apply Nat.div_eq_of_lt
    calc w < 2 ^ 64 := hw
      _ = 4 ^ 32 := by norm_num
  rw [hadd, h1, pairCount_zero_val]
  omega

theorem cnpw_end_block (w e : Nat) (he : e ≤ 32) :
    countNonzeroPairsWord (w &&& ((1 <<< (e * 2)) - 1)) = pairCount e w := by
  have := cnpw_same_block w 0 e (by omega) he
  rw [Nat.shiftRight_zero] at this
  simpa using this

/-! ## Interior word loop -/

theorem sum_blocks (array : List Nat) : ∀ (n fb : Nat),
    ((List.range' fb n).map (fun b => countNonzeroPairsWord (array.getD b 0))).sum =
      (List.range' (32 * fb) (32 * n)).countP (fun i => groupNZ array i) := by
  intro n
  induction n with
  | zero => intro fb; simp
  | succ n ih =>
    intro fb
    rw [List.range'_succ]
    simp only [List.map_cons, List.sum_cons]
    rw [ih (fb + 1), countNonzeroPairsWord_eq]
    have hw := countP_block array 32 0 fb (by omega)
    rw [pow_zero, Nat.div_one, Nat.add_zero] at hw
    rw [← hw]
    have hsplit : List.range' (32 * fb) (32 * (n + 1)) =
        List.range' (32 * fb) 32 ++ List.range' (32 * fb + 32) (32 * n) := by
      rw [show 32 * (n + 1) = 32 * n + 32 by omega]
      exact (List.range'_append_1 (32 * fb) 32 (32 * n)).symm
    rw [hsplit, List.countP_append]
    have h2 : 32 * (fb + 1) = 32 * fb + 32 := by omega
    rw [h2]

/-! ## count_nonzero_pairs agrees with the specified rank semantics -/

theorem countP_range_split (a b c : Nat) (hab : a ≤ b) (hbc : b ≤ c) (p : Nat → Bool) :
    (List.range' a (c - a)).countP p =
      (List.range' a (b - a)).countP p + (List.range' b (c - b)).countP p := by
  have h := List.range'_append_1 a (b - a) (c - b)
  have h1 : a + (b - a) = b := by omega
  have h2 : (c - b) + (b - a) = c - a := by omega
  rw [h1, h2] at h
  rw [← h, List.countP_append]

theorem getD_lt_64 (array : List Nat) (hw : ∀ w ∈ array, w < 2 ^ 64) (i : Nat) :
    array.getD i 0 < 2 ^ 64 := by
  rw [List.getD_eq_getElem?_getD]
  rcases Nat.lt_or_ge i array.length with h | h
  · rw [List.getElem?_eq_getElem h]
    exact hw _ (List.getElem_mem h)
  · rw [List.getElem?_eq_none h]
    norm_num

theorem countNonzeroPairsN_eq_rankSpec (start fin : Nat) (array : List Nat)
    (hle : start ≤ fin) (hw : ∀ w ∈ array, w < 2 ^ 64) :
    countNonzeroPairsN start fin array = rankSpec start fin array := by
  have hget := getD_lt_64 array hw
  simp only [countNonzeroPairsN, rankSpec]
  by_cases hb : start / 32 = fin / 32
  · rw [if_pos hb]
    have hse : start % 32 ≤ fin % 32 := by omega
    rw [cnpw_same_block (array.getD (start / 32) 0) (start % 32) (fin % 32) hse (by omega)]
    have hcb := countP_block array (fin % 32 - start % 32) (start % 32) (start / 32) (by omega)
    have harg1 : 32 * (start / 32) + start % 32 = start := by omega
    have harg2 : fin % 32 - start % 32 = fin - start := by omega
    rw [harg1, harg2] at hcb
    rw [harg2]
    exact hcb.symm
  · rw [if_neg hb]
    have hlt : start / 32 < fin / 32 := by omega
    by_cases hs0 : start % 32 = 0
    · rw [if_pos hs0, if_pos hs0]
      rw [sum_blocks array (fin / 32 - start / 32) (start / 32)]
      by_cases he0 : fin % 32 = 0
      · rw [if_pos he0]
        have h1 : 32 * (start / 32) = start := by omega
        have h2 : 32 * (fin / 32 - start / 32) = fin - start := by omega
        rw [h1, h2]
        omega
      · rw [if_neg he0]
        rw [cnpw_end_block (array.getD (fin / 32) 0) (fin % 32) (by omega)]
        have hcb := countP_block array (fin % 32) 0 (fin / 32) (by omega)
        rw [pow_zero, Nat.div_one, Nat.add_zero] at hcb
        rw [← hcb]
        have hsplit := countP_range_split start (32 * (fin / 32)) fin (by omega) (by omega)
          (fun i => groupNZ array i)
        rw [hsplit]
        have h1 : 32 * (start / 32) = start := by omega
        have h2 : 32 * (fin / 32 - start / 32) = 32 * (fin / 32) - start := by omega
        have h3 : fin - 32 * (fin / 32) = fin % 32 := by omega
        rw [h1, h2, h3]
        omega
    · rw [if_neg hs0, if_neg hs0]
      rw [cnpw_start_block (array.getD (start / 32) 0) (start % 32) (hget _) (by omega)]
      rw [sum_blocks array (fin / 32 - (start / 32 + 1)) (start / 32 + 1)]
      have hcbs := countP_block array (32 - start % 32) (start % 32) (start / 32) (by omega)
      have harg1 : 32 * (start / 32) + start % 32 = start := by omega
      rw [harg1] at hcbs
      rw [← hcbs]
      have hmid : 32 * (start / 32 + 1) = start + (32 - start % 32) := by omega
      rw [hmid]
      by_cases he0 : fin % 32 = 0
      · rw [if_pos he0]
        have hsplit := countP_range_split start (start + (32 - start % 32)) fin
          (by omega) (by omega) (fun i => groupNZ array i)
        rw [hsplit]
        have h1 : start + (32 - start % 32) - start = 32 - start % 32 := by omega
        have h2 : 32 * (fin / 32 - (start / 32 + 1)) = fin - (start + (32 - start % 32)) := by omega
        rw [h1, h2]
        omega
      · rw [if_neg he0]
        rw [cnpw_end_block (array.getD (fin / 32) 0) (fin % 32) (by omega)]
        have hcbe := countP_block array (fin % 32) 0 (fin / 32) (by omega)
        rw [pow_zero, Nat.div_one, Nat.add_zero] at hcbe
        rw [← hcbe]
        have hsplit1 := countP_range_split start (start + (32 - start % 32)) fin
          (by omega) (by omega) (fun i => groupNZ array i)
        have hsplit2 := countP_range_split (start + (32 - start % 32)) (32 * (fin / 32)) fin
          (by omega) (by omega) (fun i => groupNZ array i)
        rw [hsplit1, hsplit2]
        have h1 : start + (32 - start % 32) - start = 32 - start % 32 := by omega
        have h2 : 32 * (fin / 32 - (start / 32 + 1)) = 32 * (fin / 32) - (start + (32 - start % 32)) := by omega
        have h3 : fin - 32 * (fin / 32) = fin % 32 := by omega
        rw [h1, h2, h3]
        omega

/-! ## rankSpec helpers -/

theorem rankSpec_split (a b c : Nat) (array : List Nat) (hab : a ≤ b) (hbc : b ≤ c) :
    rankSpec a c array = rankSpec a b array + rankSpec b c array := by
  unfold rankSpec
  exact countP_range_split a b c hab hbc _

theorem rankSpec_le_sub (a b : Nat) (array : List Nat) : rankSpec a b array ≤ b - a := by
  unfold rankSpec
  calc (List.range' a (b - a)).countP _ ≤ (List.range' a (b - a)).length := List.countP_le_length _
    _ = b - a := by simp

theorem rankSpec_pos (a b : Nat) (array : List Nat) (hab : a < b) (hnz : groupNZ array a = true) :
    1 ≤ rankSpec a b array := by
  unfold rankSpec
  have h1 : b - a = (b - a - 1) + 1 := by omega
  rw [h1, List.range'_succ, List.countP_cons, hnz]
  simp

theorem rankSpec_lt_of_mem (a v b : Nat) (array : List Nat) (hav : a ≤ v) (hvb : v < b)
    (hnz : groupNZ array v = true) : rankSpec a v array < rankSpec a b array := by
  rw [rankSpec_split a v b array hav (le_of_lt hvb)]
  have := rankSpec_pos v b array hvb hnz
  omega

/-! ## Machine-integer helper lemmas -/

theorem toInt32_of_lt {v : Nat} (h : v < 2 ^ 31) : toInt32 v = (v : Int) := by
  unfold toInt32
  have h32 : v % 2 ^ 32 = v := Nat.mod_eq_of_lt (by omega)
  rw [h32, if_pos h]

theorem toInt32_range (v : Nat) : -(2 ^ 31) ≤ toInt32 v ∧ toInt32 v < 2 ^ 31 := by
  unfold toInt32
  have h1 : v % 2 ^ 32 < 2 ^ 32 := Nat.mod_lt v (by norm_num)
  by_cases h : v % 2 ^ 32 < 2 ^ 31
  · rw [if_pos h]
    omega
  · rw [if_neg h]
    omega

theorem toInt32_eq_self_iff (v : Nat) : toInt32 v = (v : Int) ↔ v < 2 ^ 31 := by
  constructor
  · intro h
    have hr := toInt32_range v
    rw [h] at hr
    omega
  · exact toInt32_of_lt

theorem toInt64_of_lt {v : Nat} (h : v < 2 ^ 63) : toInt64 v = (v : Int) := by
  unfold toInt64
  have h64 : v % 2 ^ 64 = v := Nat.mod_eq_of_lt (by omega)
  rw [h64, if_pos h]

theorem u64OfInt_ofNat (n : Nat) (h : n < 2 ^ 64) : u64OfInt (n : Int) = n := by
  unfold u64OfInt
  omega

theorem dirGet_ofNat (l : List Nat) (n : Nat) : dirGet l (n : Int) = l.getD n 0 := by
  unfold dirGet
  rw [if_neg (by omega)]
  simp

/-! ## count_nonzero_pairs below the int-truncation threshold -/

theorem map_sum_int_blocks (array : List Nat) (fb n : Nat) :
    ((List.range n).map
      (fun (i : Nat) => countNonzeroPairsWord (dirGet array ((fb : Int) + (i : Int))))).sum =
    ((List.range' fb n).map (fun b => countNonzeroPairsWord (array.getD b 0))).sum := by
  rw [List.range'_eq_map_range, List.map_map]
  congr 1

/-- Below end index 2^36 every block index of count_nonzero_pairs fits in
a non-negative C int, so the int truncation is invisible and the code
computes the exact-block-index rank. -/
theorem countNonzeroPairs_int_safe (start fin : Nat) (array : List Nat)
    (hle : start ≤ fin) (hfin : fin < 2 ^ 36) :
    countNonzeroPairs start fin array = countNonzeroPairsN start fin array := by
  have hs32 : start / 32 < 2 ^ 31 := by omega
  have hf32 : fin / 32 < 2 ^ 31 := by omega
  simp only [countNonzeroPairs, countNonzeroPairsN]
  rw [toInt32_of_lt hs32, toInt32_of_lt hf32]
  by_cases hb : start / 32 = fin / 32
  · rw [if_pos (by exact_mod_cast hb), if_pos hb, dirGet_ofNat]
  · have hbne : ((start / 32 : Nat) : Int) ≠ ((fin / 32 : Nat) : Int) := by
      intro hcast
      exact hb (by exact_mod_cast hcast)
    rw [if_neg hbne, if_neg hb]
    have hlt : start / 32 < fin / 32 := by omega
    by_cases hs0 : start % 32 = 0
    · rw [if_pos hs0, if_pos hs0, if_pos hs0, if_pos hs0]
      have hcnt : (((fin / 32 : Nat) : Int) - ((start / 32 : Nat) : Int)).toNat =
          fin / 32 - start / 32 := by omega
      have hmax : max ((start / 32 : Nat) : Int) ((fin / 32 : Nat) : Int) =
          ((fin / 32 : Nat) : Int) := by omega
      rw [hcnt, hmax, map_sum_int_blocks array (start / 32) (fin / 32 - start / 32), dirGet_ofNat]
    · rw [if_neg hs0, if_neg hs0, if_neg hs0, if_neg hs0]
      have hc1 : ((start / 32 : Nat) : Int) + 1 = ((start / 32 + 1 : Nat) : Int) := by
        push_cast
        ring
      rw [hc1]
      have hcnt : (((fin / 32 : Nat) : Int) - ((start / 32 + 1 : Nat) : Int)).toNat =
          fin / 32 - (start / 32 + 1) := by omega
      have hmax : max ((start / 32 + 1 : Nat) : Int) ((fin / 32 : Nat) : Int) =
          ((fin / 32 : Nat) : Int) := by omega
      rw [hcnt, hmax, map_sum_int_blocks array (start / 32 + 1) (fin / 32 - (start / 32 + 1)),
        dirGet_ofNat, dirGet_ofNat]

theorem countNonzeroPairs_eq_rankSpec (start fin : Nat) (array : List Nat)
    (hle : start ≤ fin) (hfin : fin < 2 ^ 36) (hw : ∀ w ∈ array, w < 2 ^ 64) :
    countNonzeroPairs start fin array = rankSpec start fin array :=
  (countNonzeroPairs_int_safe start fin array hle hfin).trans
    (countNonzeroPairsN_eq_rankSpec start fin array hle hw)

/-! ## count_nonzero_pairs at and beyond the int-truncation threshold -/

/-- Over the range [0, 2^36) the code truncates end_block to the negative
int -2^31: both boundary offsets are 0 and the interior loop never runs
(0 < -2^31 is false), so every array gets rank 0 over this range. -/
theorem cnp_trunc_from_zero (array : List Nat) : countNonzeroPairs 0 (2 ^ 36) array = 0 := by
  simp only [countNonzeroPairs]
  rw [show toInt32 (0 / 32) = 0 from by decide,
    show toInt32 (2 ^ 36 / 32) = -(2 ^ 31) from by decide]
  rw [if_neg (by decide : ¬((0 : Int) = -(2 ^ 31)))]
  simp only [if_true]
  rw [if_pos (by norm_num : (2 : Nat) ^ 36 % 32 = 0)]
  rw [Int.toNat_of_nonpos (by decide)]
  simp

/-- The same truncation from start index 32: block is 1, end_block is
-2^31, the loop is skipped and the result is 0 for every array. -/
theorem cnp_trunc_from_32 (array : List Nat) : countNonzeroPairs 32 (2 ^ 36) array = 0 := by
  simp only [countNonzeroPairs]
  rw [show toInt32 (32 / 32) = 1 from by decide,
    show toInt32 (2 ^ 36 / 32) = -(2 ^ 31) from by decide]
  rw [if_neg (by decide : ¬((1 : Int) = -(2 ^ 31)))]
  simp only [if_true]
  rw [if_pos (by norm_num : (2 : Nat) ^ 36 % 32 = 0)]
  rw [Int.toNat_of_nonpos (by decide)]
  simp

/-- On the 2^31-word all-ones array the rank over the first word alone is
computed without truncation and equals 1. -/
theorem cnp_replicate_0_32 : countNonzeroPairs 0 32 (List.replicate (2 ^ 31) 1) = 1 := by
  simp only [countNonzeroPairs]
  rw [show toInt32 (0 / 32) = 0 from by decide, show toInt32 (32 / 32) = 1 from by decide]
  rw [if_neg (by decide : ¬((0 : Int) = 1))]
  simp only [if_true]
  rw [show ((1 : Int) - 0).toNat = 1 from by decide]
  rw [show List.range 1 = [0] from rfl]
  simp only [List.map_cons, List.map_nil, List.sum_cons, List.sum_nil]
  have hd : dirGet (List.replicate (2 ^ 31) 1) ((0 : Int) + ((0 : Nat) : Int)) = 1 := by
    unfold dirGet
    rw [if_neg (by decide)]
    rw [show ((0 : Int) + ((0 : Nat) : Int)).toNat = 0 from by decide]
    rw [show (2 ^ 31 : Nat) = 2 ^ 31 - 1 + 1 from by norm_num, List.replicate_succ,
      List.getD_cons_zero]
  rw [hd]
  decide

theorem groupNZ_replicate_head (n a : Nat) (hn : 0 < n) (ha : a &&& 3 ≠ 0) :
    groupNZ (List.replicate n a) 0 = true := by
  unfold groupNZ
  have hg : (List.replicate n a).getD 0 0 = a := by
    rcases n with _ | n
    · omega
    · rw [List.replicate_succ, List.getD_cons_zero]
  simp only [Nat.zero_div, Nat.zero_mod, Nat.mul_zero, Nat.shiftRight_zero, hg]
  exact bne_iff_ne.2 ha

theorem rank_replicate_ne_zero (n a b : Nat) (hn : 0 < n) (hb : 0 < b) (ha : a &&& 3 ≠ 0) :
    rankSpec 0 b (List.replicate n a) ≠ 0 := by
  have := rankSpec_pos 0 b (List.replicate n a) hb (groupNZ_replicate_head n a hn ha)
  omega

/-! ## Claims C2 and C7: rank semantics of count_nonzero_pairs -/

/-- C7 as stated fails on the code: on the 2^31-word array of words 1,
additivity over the in-array indices 0 <= 32 <= 2^36 is violated, because
the rank over [0, 2^36) truncates end_block to the negative int -2^31 and
returns 0 while the rank over [0, 32) alone is already 1. -/
theorem c7_counterexample :
    (∀ w ∈ List.replicate (2 ^ 31) (1 : Nat), w < 2 ^ 64) ∧
    2 ^ 36 ≤ 32 * (List.replicate (2 ^ 31) (1 : Nat)).length ∧
    countNonzeroPairs 0 32 (List.replicate (2 ^ 31) 1) +
        countNonzeroPairs 32 (2 ^ 36) (List.replicate (2 ^ 31) 1) ≠
      countNonzeroPairs 0 (2 ^ 36) (List.replicate (2 ^ 31) 1) := by
  refine ⟨?_, by rw [List.length_replicate]; norm_num, ?_⟩
  · intro w hw
    rw [List.mem_replicate] at hw
    omega
  · rw [cnp_replicate_0_32, cnp_trunc_from_32, cnp_trunc_from_zero]
    decide

/-- C7 amended: the rank operator is additive over adjacent ranges
a <= b <= c of a label array whenever c lies below 2^36 (so that the int
block indices of the implementation do not truncate), and every empty
range [x, x) has rank 0 unconditionally. -/
theorem c7_amended_additive_and_empty :
    (∀ (labels : List Nat) (a b c : Nat), (∀ w ∈ labels, w < 2 ^ 64) →
      c ≤ 32 * labels.length → c < 2 ^ 36 → a ≤ b → b ≤ c →
      countNonzeroPairs a b labels + countNonzeroPairs b c labels = countNonzeroPairs a c labels) ∧
    (∀ (labels : List Nat) (x : Nat), countNonzeroPairs x x labels = 0) := by
  constructor
  · intro labels a b c hw _ hc36 hab hbc
    rw [countNonzeroPairs_eq_rankSpec a b labels hab (by omega) hw,
        countNonzeroPairs_eq_rankSpec b c labels hbc hc36 hw,
        countNonzeroPairs_eq_rankSpec a c labels (le_trans hab hbc) hc36 hw]
    exact (rankSpec_split a b c labels hab hbc).symm
  · intro labels x
    simp only [countNonzeroPairs, if_true]
    rw [cnpw_same_block (dirGet labels (toInt32 (x / 32))) (x % 32) (x % 32) (le_refl _)
      (by omega)]
    rw [Nat.sub_self]
    rfl

/-- Witness for C7 amended at a concrete array, split point and empty
range. -/
theorem c7_witness :
    countNonzeroPairs 1 5 [0x123456789ABCDEF0] + countNonzeroPairs 5 9 [0x123456789ABCDEF0] =
      countNonzeroPairs 1 9 [0x123456789ABCDEF0] ∧
    countNonzeroPairs 7 7 [0x123456789ABCDEF0] = 0 :=
  ⟨c7_amended_additive_and_empty.1 [0x123456789ABCDEF0] 1 5 9 (by decide) (by decide)
    (by decide) (by decide) (by decide),
   c7_amended_additive_and_empty.2 [0x123456789ABCDEF0] 7⟩

theorem and_offset_mask_eq_mod (x : Nat) : x &&& OFFSET_MASK = x % 2 ^ 56 := by
  unfold OFFSET_MASK
  exact Nat.and_pow_two_sub_one_eq_mod x 56

theorem shiftRight8_div (a : Nat) : a >>> 8 = a / 256 := by
  rw [Nat.shiftRight_eq_div_pow]

theorem vertex_offset_formula (entry : Nat) :
    vertex_offset entry = ((entry % 2 ^ 56) * 281) % 2 ^ 64 / 256 := by
  unfold vertex_offset C_TIMES_256
  rw [and_offset_mask_eq_mod, shiftRight8_div]

theorem vertex_offset_lt (entry : Nat) : vertex_offset entry < 2 ^ 56 := by
  rw [vertex_offset_formula]
  have h1 : ((entry % 2 ^ 56) * 281) % 2 ^ 64 < 2 ^ 64 := Nat.mod_lt _ (by norm_num)
  omega

/-! ## Claims C6 and C9: the vertex-offset decoder -/

/-- C9: vertex_offset multiplies field * 281 in 64-bit modular arithmetic:
whenever the low-56-bit field exceeds floor((2^64-1)/281) the result is
((field * 281) mod 2^64) >> 8 and is not floor(field * 281 / 256); the
floor formula of the spec is reproduced exactly only when
field * 281 < 2^64. -/
theorem c9_vertex_offset_modular (entry : Nat) :
    ((entry &&& OFFSET_MASK) > (2 ^ 64 - 1) / 281 →
      vertex_offset entry = (((entry &&& OFFSET_MASK) * 281) % 2 ^ 64) >>> 8 ∧
      vertex_offset entry ≠ ((entry &&& OFFSET_MASK) * 281) / 256) ∧
    (vertex_offset entry = ((entry &&& OFFSET_MASK) * 281) / 256 →
      (entry &&& OFFSET_MASK) * 281 < 2 ^ 64) := by
  have hmask := and_offset_mask_eq_mod entry
  have hform := vertex_offset_formula entry
  have hflt : entry % 2 ^ 56 < 2 ^ 56 := Nat.mod_lt entry (by norm_num)
  have hwr : ∀ a : Nat, (a % 2 ^ 64) >>> 8 = a % 2 ^ 64 / 256 := fun a => shiftRight8_div (a % 2 ^ 64)
  -- key arithmetic fact: once the product wraps, the quotients differ
  have hkey : (entry % 2 ^ 56) * 281 ≥ 2 ^ 64 →
      ((entry % 2 ^ 56) * 281) % 2 ^ 64 / 256 ≠ (entry % 2 ^ 56) * 281 / 256 := by
    intro hge
    have hub : (entry % 2 ^ 56) * 281 < 2 * 2 ^ 64 := by
      have : (entry % 2 ^ 56) * 281 < 2 ^ 56 * 281 :=
        Nat.mul_lt_mul_of_lt_of_le hflt (le_refl 281) (by norm_num)
      omega
    have hmod : ((entry % 2 ^ 56) * 281) % 2 ^ 64 = (entry % 2 ^ 56) * 281 - 2 ^ 64 := by
      omega
    rw [hmod]
    omega
  constructor
  · intro hbig
    rw [hmask] at hbig
    constructor
    · rw [hform, hmask, hwr]
    · rw [hform, hmask]
      apply hkey
      omega
  · intro heq
    rw [hform, hmask] at heq
    rw [hmask]
    by_contra hge
    exact hkey (by omega) heq

/-- Witness for C9 at the all-ones 56-bit field. -/
theorem c9_witness :
    ((2 ^ 56 - 1 : Nat) &&& OFFSET_MASK > (2 ^ 64 - 1) / 281 ∧
      vertex_offset (2 ^ 56 - 1) = ((((2 ^ 56 - 1 : Nat) &&& OFFSET_MASK) * 281) % 2 ^ 64) >>> 8 ∧
      vertex_offset (2 ^ 56 - 1) ≠ (((2 ^ 56 - 1 : Nat) &&& OFFSET_MASK) * 281) / 256) :=
  have h := (c9_vertex_offset_modular (2 ^ 56 - 1)).1 (by decide)
  ⟨by decide, h.1, h.2⟩

/-- C6 as stated fails: at the directory entry with field 2^56 - 1 the
64-bit product field * 281 wraps, so vertex_offset does not return
floor(field * R / 256). -/
theorem c6_counterexample :
    vertex_offset (2 ^ 56 - 1) ≠ (((2 ^ 56 - 1 : Nat) &&& OFFSET_MASK) * 281) / 256 := by
  decide

/-- C6 amended: vertex_offset extracts the low-56-bit field and returns
((field * R) mod 2^64) >> 8 with R = floor(1.10 * 256) = 281, a pure total
function; this equals floor(field * R / 256) whenever field * R < 2^64. -/
theorem c6_vertex_offset_amended (entry : Nat) :
    vertex_offset entry = (((entry &&& OFFSET_MASK) * C_TIMES_256) % 2 ^ 64) >>> 8 ∧
    ((entry &&& OFFSET_MASK) * C_TIMES_256 < 2 ^ 64 →
      vertex_offset entry = ((entry &&& OFFSET_MASK) * C_TIMES_256) / 256) := by
  constructor
  · rfl
  · intro hsmall
    unfold vertex_offset
    rw [Nat.mod_eq_of_lt hsmall, shiftRight8_div]

/-- Witness for C6 amended at a small field where no wrap occurs. -/
theorem c6_amended_witness :
    vertex_offset 2 = (((2 &&& OFFSET_MASK) * C_TIMES_256) % 2 ^ 64) >>> 8 ∧
    vertex_offset 2 = ((2 &&& OFFSET_MASK) * C_TIMES_256) / 256 :=
  ⟨(c6_vertex_offset_amended 2).1, (c6_vertex_offset_amended 2).2 (by decide)⟩

/-! ## Claim C10: chunk-index truncation to int -/

/-- C10: both evaluate entry points store h[0] >> chunk_shift into a
32-bit signed int, so the chunk index actually used equals the specified
value exactly when it is below 2^31; for every chunk_shift at most 32
there are hash values whose stored chunk index is truncated or negative,
diverging from the specified chunk selection. -/
theorem c10_chunk_truncation :
    (∀ h0 s : Nat, chunkOfHash h0 s = ((h0 >>> s : Nat) : Int) ↔ h0 >>> s < 2 ^ 31) ∧
    (∀ s : Nat, s ≤ 32 → ∃ h0 : Nat, h0 < 2 ^ 64 ∧
      chunkOfHash h0 s ≠ ((h0 >>> s : Nat) : Int)) := by
  constructor
  · intro h0 s
    exact toInt32_eq_self_iff (h0 >>> s)
  · intro s hs
    refine ⟨2 ^ 63, by norm_num, ?_⟩
    show toInt32 (2 ^ 63 >>> s) ≠ ((2 ^ 63 >>> s : Nat) : Int)
    have he : (2 : Nat) ^ 63 >>> s = 2 ^ (63 - s) := by
      rw [Nat.shiftRight_eq_div_pow, Nat.pow_div (by omega) (by norm_num)]
    rw [he]
    intro hcontra
    have hlt := (toInt32_eq_self_iff (2 ^ (63 - s))).1 hcontra
    have hge : (2 : Nat) ^ 31 ≤ 2 ^ (63 - s) := Nat.pow_le_pow_right (by norm_num) (by omega)
    omega

/-- Witness for C10: at chunk_shift 32 a concrete hash word is truncated. -/
theorem c10_witness : ∃ h0 : Nat, h0 < 2 ^ 64 ∧
    chunkOfHash h0 32 ≠ ((h0 >>> 32 : Nat) : Int) :=
  c10_chunk_truncation.2 32 (by decide)

/-! ## Claim C5: the multiply-shift triple derivation -/

theorem countP_range_lt (w s : Nat) :
    (List.range w).countP (fun i => decide (i < s)) = min w s := by
  induction w with
  | zero => simp
  | succ w ih =>
    rw [List.range_succ, List.countP_append, ih, List.countP_cons]
    by_cases h : w < s
    · simp [h]
      omega
    · simp [h]
      omega

theorem bitLength64_eq_size (n : Nat) (h : n < 2 ^ 64) : bitLength64 n = Nat.size n := by
  unfold bitLength64
  have hs : Nat.size n ≤ 64 := Nat.size_le.2 h
  have hcongr : (List.range 64).countP (fun i => decide (2 ^ i ≤ n)) =
      (List.range 64).countP (fun i => decide (i < Nat.size n)) := by
    apply List.countP_congr
    intro i _
    simp only [decide_eq_true_eq]
    exact (Nat.lt_size).symm
  rw [hcongr, countP_range_lt]
  omega

theorem clzll_eq_size (n : Nat) (h2 : n < 2 ^ 64) : clzll n = 64 - Nat.size n := by
  unfold clzll
  rw [bitLength64_eq_size n h2]

theorem tteWord_spec (h n : Nat) (h1 : 1 ≤ n) (h2 : n < 2 ^ 64) :
    tteWord h n = (h % 2 ^ (64 - Nat.size n)) * n / 2 ^ (64 - Nat.size n) ∧ tteWord h n < n := by
  have hcz := clzll_eq_size n h2
  have hnlt : n < 2 ^ Nat.size n := Nat.lt_size_self n
  have hsle : Nat.size n ≤ 64 := Nat.size_le.2 h2
  have hmlt : h % 2 ^ (64 - Nat.size n) < 2 ^ (64 - Nat.size n) := Nat.mod_lt h (by positivity)
  have hprod : (h % 2 ^ (64 - Nat.size n)) * n < 2 ^ 64 := by
    calc (h % 2 ^ (64 - Nat.size n)) * n < 2 ^ (64 - Nat.size n) * 2 ^ Nat.size n :=
          Nat.mul_lt_mul_of_lt_of_le hmlt (le_of_lt hnlt) (by positivity)
      _ = 2 ^ 64 := by
          rw [← pow_add]
          congr 1
          omega
  have hform : tteWord h n = (h % 2 ^ (64 - Nat.size n)) * n / 2 ^ (64 - Nat.size n) := by
    unfold tteWord
    rw [hcz, Nat.one_shiftLeft, Nat.and_pow_two_sub_one_eq_mod,
      Nat.mod_eq_of_lt hprod, Nat.shiftRight_eq_div_pow]
  refine ⟨hform, ?_⟩
  rw [hform]
  rw [Nat.div_lt_iff_lt_mul (by positivity)]
  calc (h % 2 ^ (64 - Nat.size n)) * n = n * (h % 2 ^ (64 - Nat.size n)) := by ring
    _ < n * 2 ^ (64 - Nat.size n) := by
        apply Nat.mul_lt_mul_of_le_of_lt (le_refl n) hmlt (by omega)

/-- C5: for num_variables >= 1 (fitting a C int) and any rehashed value,
triple_to_equation maps each of the first three hash words through
shift = 64 - bit_length(num_variables), mask = 2^shift - 1,
e[i] = ((hash[i] and mask) * num_variables) >> shift, and each result
lies in [0, num_variables). -/
theorem c5_triple_to_equation_range (R : (Fin 4 → Nat) → Nat → Fin 4 → Nat)
    (t : Fin 4 → Nat) (seed : Nat) (nv : Int) (h1 : 1 ≤ nv) (h2 : nv < 2 ^ 31) (i : Fin 3) :
    triple_to_equation R t seed nv i =
      (((R t seed (Fin.castLE (by decide) i) % 2 ^ (64 - Nat.size nv.toNat)) * nv.toNat
        / 2 ^ (64 - Nat.size nv.toNat) : Nat) : Int) ∧
    0 ≤ triple_to_equation R t seed nv i ∧ triple_to_equation R t seed nv i < nv := by
  have hnvU : u64OfInt nv = nv.toNat := by
    unfold u64OfInt
    omega
  have hn1 : 1 ≤ nv.toNat := by omega
  have hn2 : nv.toNat < 2 ^ 64 := by omega
  have hsp := tteWord_spec (R t seed (Fin.castLE (by decide) i)) nv.toNat hn1 hn2
  have htte : triple_to_equation R t seed nv i =
      toInt32 (tteWord (R t seed (Fin.castLE (by decide) i)) (u64OfInt nv)) := rfl
  rw [htte, hnvU]
  have hlt31 : tteWord (R t seed (Fin.castLE (by decide) i)) nv.toNat < 2 ^ 31 := by
    have := hsp.2
    omega
  rw [toInt32_of_lt hlt31]
  refine ⟨by exact_mod_cast hsp.1, by positivity, ?_⟩
  have := hsp.2
  omega

/-- Witness for C5 at a concrete rehash model and num_variables 5. -/
theorem c5_witness :
    triple_to_equation (fun t _ => t) (fun _ => 2 ^ 61 + 7) 0 5 0 =
      ((((fun (_ : Fin 4) => 2 ^ 61 + 7) 0 % 2 ^ (64 - Nat.size (5 : Int).toNat)) * (5 : Int).toNat
        / 2 ^ (64 - Nat.size (5 : Int).toNat) : Nat) : Int) ∧
    0 ≤ triple_to_equation (fun t _ => t) (fun _ => 2 ^ 61 + 7) 0 5 0 ∧
    triple_to_equation (fun t _ => t) (fun _ => 2 ^ 61 + 7) 0 5 0 < 5 :=
  c5_triple_to_equation_range (fun t _ => t) (fun _ => 2 ^ 61 + 7) 0 5
    (by decide) (by decide) 0

/-! ## Claim C8: the two evaluate entry points -/

/-- C8: get_uint64_t computes exactly get_byte_array applied to the
8-byte native (little-endian) in-memory encoding of the 64-bit key; the
two entry points are the same algorithm differing only in the key bytes
fed to the hash primitive. -/
theorem c8_uint64_matches_byte_array (S : SpookyModel) (m : mph) (k : Nat) :
    get_uint64_t S m k = get_byte_array S m (u64Bytes k) := rfl

/-! ## Bounds on the rank primitive and the e triple -/

theorem countNonzeroPairsWord_le (x : Nat) : countNonzeroPairsWord x ≤ 32 := by
  rw [countNonzeroPairsWord_eq]
  exact pairCount_le 32 x

theorem sum_map_range_le32 (f : Nat → Nat) (hf : ∀ i, f i ≤ 32) :
    ∀ n, ((List.range n).map f).sum ≤ 32 * n := by
  intro n
  induction n with
  | zero => simp
  | succ n ih =>
    rw [List.range_succ, List.map_append, List.sum_append]
    simp only [List.map_cons, List.map_nil, List.sum_cons, List.sum_nil]
    have := hf n
    omega

/-- Unconditional bound on the rank primitive: the interior while loop
runs (end_block - block).toNat < 2^32 times (both ints lie in
[-2^31, 2^31)) and contributes at most 32 per word, the two boundary
words at most 32 each.  This bound holds for every argument, truncating
or not, and keeps the populated evaluate result below 2^63. -/
theorem countNonzeroPairs_le_bound (start fin : Nat) (array : List Nat) :
    countNonzeroPairs start fin array ≤ 64 + 32 * 2 ^ 32 := by
  simp only [countNonzeroPairs]
  by_cases hb : toInt32 (start / 32) = toInt32 (fin / 32)
  · rw [if_pos hb]
    have := countNonzeroPairsWord_le
      ((dirGet array (toInt32 (start / 32)) &&& ((1 <<< (fin % 32 * 2)) - 1)) >>> (start % 32 * 2))
    omega
  · rw [if_neg hb]
    have h1 := countNonzeroPairsWord_le (dirGet array (toInt32 (start / 32)) >>> (start % 32 * 2))
    have hr1 := toInt32_range (start / 32)
    have hr2 := toInt32_range (fin / 32)
    by_cases hs0 : start % 32 = 0
    · rw [if_pos hs0, if_pos hs0]
      have h2 := countNonzeroPairsWord_le
        (dirGet array (max (toInt32 (start / 32)) (toInt32 (fin / 32))) &&&
          ((1 <<< (fin % 32 * 2)) - 1))
      have hm := sum_map_range_le32
        (fun i => countNonzeroPairsWord (dirGet array (toInt32 (start / 32) + (i : Int))))
        (fun i => countNonzeroPairsWord_le _)
        ((toInt32 (fin / 32) - toInt32 (start / 32)).toNat)
      have hn : (toInt32 (fin / 32) - toInt32 (start / 32)).toNat ≤ 2 ^ 32 := by omega
      by_cases he0 : fin % 32 = 0
      · rw [if_pos he0]
        omega
      · rw [if_neg he0]
        omega
    · rw [if_neg hs0, if_neg hs0]
      have h2 := countNonzeroPairsWord_le
        (dirGet array (max (toInt32 (start / 32) + 1) (toInt32 (fin / 32))) &&&
          ((1 <<< (fin % 32 * 2)) - 1))
      have hm := sum_map_range_le32
        (fun i => countNonzeroPairsWord (dirGet array ((toInt32 (start / 32) + 1) + (i : Int))))
        (fun i => countNonzeroPairsWord_le _)
        ((toInt32 (fin / 32) - (toInt32 (start / 32) + 1)).toNat)
      have hn : (toInt32 (fin / 32) - (toInt32 (start / 32) + 1)).toNat ≤ 2 ^ 32 := by omega
      by_cases he0 : fin % 32 = 0
      · rw [if_pos he0]
        omega
      · rw [if_neg he0]
        omega

theorem tteWord_nvU_zero (hw : Nat) : tteWord hw 0 = 0 := by
  unfold tteWord
  rw [Nat.mul_zero, Nat.zero_mod, Nat.zero_shiftRight]

theorem tteWord_nvU_top (hw nvU : Nat) (hge : 2 ^ 63 ≤ nvU) (hlt : nvU < 2 ^ 64) :
    tteWord hw nvU = 0 := by
  have hsz : Nat.size nvU = 64 := by
    have h1 : Nat.size nvU ≤ 64 := Nat.size_le.2 hlt
    have h2 : 63 < Nat.size nvU := Nat.lt_size.2 hge
    omega
  have hcz : clzll nvU = 0 := by
    rw [clzll_eq_size nvU hlt, hsz]
  unfold tteWord
  rw [hcz]
  simp

theorem toInt32_eq_zero_iff (v : Nat) : toInt32 v = 0 ↔ v % 2 ^ 32 = 0 := by
  unfold toInt32
  have h1 : v % 2 ^ 32 < 2 ^ 32 := Nat.mod_lt v (by norm_num)
  by_cases h : v % 2 ^ 32 < 2 ^ 31
  · rw [if_pos h]
    omega
  · rw [if_neg h]
    omega

theorem nvAt_range (m : mph) (c : Int) : -(2 ^ 31) ≤ nvAt m c ∧ nvAt m c < 2 ^ 31 := by
  unfold nvAt
  exact toInt32_range _

theorem triple_to_equation_bounds (R : (Fin 4 → Nat) → Nat → Fin 4 → Nat)
    (t : Fin 4 → Nat) (seed : Nat) (nv : Int)
    (hlo : -(2 ^ 31) ≤ nv) (hhi : nv < 2 ^ 31) (i : Fin 3) :
    0 ≤ triple_to_equation R t seed nv i ∧ triple_to_equation R t seed nv i < 2 ^ 31 := by
  have he : triple_to_equation R t seed nv i =
      toInt32 (tteWord (R t seed (Fin.castLE (by decide) i)) (u64OfInt nv)) := rfl
  rcases lt_trichotomy nv 0 with hneg | hz | hpos
  · have hu : 2 ^ 63 ≤ u64OfInt nv ∧ u64OfInt nv < 2 ^ 64 := by
      unfold u64OfInt
      omega
    rw [he, tteWord_nvU_top _ _ hu.1 hu.2, toInt32_of_lt (by norm_num)]
    norm_num
  · have hu : u64OfInt nv = 0 := by
      unfold u64OfInt
      omega
    rw [he, hu, tteWord_nvU_zero, toInt32_of_lt (by norm_num)]
    norm_num
  · have hu : u64OfInt nv = nv.toNat := by
      unfold u64OfInt
      omega
    have hn1 : 1 ≤ nv.toNat := by omega
    have hn2 : nv.toNat < 2 ^ 64 := by omega
    have hsp := tteWord_spec (R t seed (Fin.castLE (by decide) i)) nv.toNat hn1 hn2
    have hlt : tteWord (R t seed (Fin.castLE (by decide) i)) nv.toNat < 2 ^ 31 := by
      have := hsp.2
      omega
    rw [he, hu, toInt32_of_lt hlt]
    constructor
    · positivity
    · have := hsp.2
      omega

theorem eAt_range (S : SpookyModel) (m : mph) (h : Fin 4 → Nat) (c : Int) (i : Fin 3) :
    0 ≤ eAt S m h c i ∧ eAt S m h c i < 2 ^ 31 := by
  have hnvr := nvAt_range m c
  exact triple_to_equation_bounds S.shortRehash h
    ((dirGet m.edge_offset_and_seed c) &&& NOT_OFFSET_MASK) (nvAt m c) hnvr.1 hnvr.2 i

theorem asgnAt_eq (S : SpookyModel) (m : mph) (h : Fin 4 → Nat) (c : Int) :
    asgnAt S m h c = vertex_offset (dirGet m.edge_offset_and_seed c) +
      (eAt S m h c ⟨selAt S m h c, Nat.mod_lt _ (by decide)⟩).toNat ∧
    asgnAt S m h c < 2 ^ 56 + 2 ^ 31 := by
  have hvo := vertex_offset_lt (dirGet m.edge_offset_and_seed c)
  have her := eAt_range S m h c ⟨selAt S m h c, Nat.mod_lt _ (by decide)⟩
  have hu : u64OfInt (eAt S m h c ⟨selAt S m h c, Nat.mod_lt _ (by decide)⟩) =
      (eAt S m h c ⟨selAt S m h c, Nat.mod_lt _ (by decide)⟩).toNat := by
    unfold u64OfInt
    omega
  have hsum : vertex_offset (dirGet m.edge_offset_and_seed c) +
      (eAt S m h c ⟨selAt S m h c, Nat.mod_lt _ (by decide)⟩).toNat < 2 ^ 56 + 2 ^ 31 := by
    omega
  have hlt : vertex_offset (dirGet m.edge_offset_and_seed c) +
      (eAt S m h c ⟨selAt S m h c, Nat.mod_lt _ (by decide)⟩).toNat < 2 ^ 64 := by
    omega
  unfold asgnAt
  rw [hu, Nat.mod_eq_of_lt hlt]
  exact ⟨rfl, hsum⟩

/-- In the populated branch, the result is the 56-bit offset field plus
the rank, a natural number below 2^63; in particular it is non-negative. -/
theorem evalBody_populated (S : SpookyModel) (m : mph) (h : Fin 4 → Nat)
    (hnz : nvAt m (chunkOfHash (h 0) m.chunk_shift) ≠ 0) :
    evalBody S m h =
      ((((dirGet m.edge_offset_and_seed (chunkOfHash (h 0) m.chunk_shift)) &&& OFFSET_MASK) +
        countNonzeroPairs (vertex_offset (dirGet m.edge_offset_and_seed (chunkOfHash (h 0) m.chunk_shift)))
          (asgnAt S m h (chunkOfHash (h 0) m.chunk_shift)) m.array : Nat) : Int) ∧
    0 ≤ evalBody S m h := by
  have hoff : (dirGet m.edge_offset_and_seed (chunkOfHash (h 0) m.chunk_shift)) &&& OFFSET_MASK < 2 ^ 56 := by
    rw [and_offset_mask_eq_mod]
    exact Nat.mod_lt _ (by norm_num)
  have hasg := asgnAt_eq S m h (chunkOfHash (h 0) m.chunk_shift)
  have hvo := vertex_offset_lt (dirGet m.edge_offset_and_seed (chunkOfHash (h 0) m.chunk_shift))
  have hcnt := countNonzeroPairs_le_bound
    (vertex_offset (dirGet m.edge_offset_and_seed (chunkOfHash (h 0) m.chunk_shift)))
    (asgnAt S m h (chunkOfHash (h 0) m.chunk_shift)) m.array
  have hsum : ((dirGet m.edge_offset_and_seed (chunkOfHash (h 0) m.chunk_shift)) &&& OFFSET_MASK) +
      countNonzeroPairs (vertex_offset (dirGet m.edge_offset_and_seed (chunkOfHash (h 0) m.chunk_shift)))
        (asgnAt S m h (chunkOfHash (h 0) m.chunk_shift)) m.array < 2 ^ 63 := by
    omega
  have heval : evalBody S m h = toInt64
      ((((dirGet m.edge_offset_and_seed (chunkOfHash (h 0) m.chunk_shift)) &&& OFFSET_MASK) +
        countNonzeroPairs (vertex_offset (dirGet m.edge_offset_and_seed (chunkOfHash (h 0) m.chunk_shift)))
          (asgnAt S m h (chunkOfHash (h 0) m.chunk_shift)) m.array) % 2 ^ 64) := by
    unfold evalBody
    rw [if_neg hnz]
  rw [heval, Nat.mod_eq_of_lt (by omega), toInt64_of_lt hsum]
  constructor
  · rfl
  · positivity

theorem evalBody_neg_one_iff (S : SpookyModel) (m : mph) (h : Fin 4 → Nat) :
    evalBody S m h = -1 ↔ nvAt m (chunkOfHash (h 0) m.chunk_shift) = 0 := by
  constructor
  · intro heq
    by_contra hnz
    have := (evalBody_populated S m h hnz).2
    omega
  · intro hz
    unfold evalBody
    rw [if_pos hz]

/-! ## Claim C4: the -1 fast-reject -/

/-- C4 as stated fails: num_variables is the int truncation of the
uint64_t offset difference, so an index whose two decoded vertex offsets
differ by exactly 2^32 (entries 0 and 3912852768 decode to offsets 0 and
2^32) makes evaluate return -1 although the offsets are not equal. -/
theorem c4_counterexample :
    get_byte_array S0 mC4 [0] = -1 ∧
    vertex_offset (mC4.edge_offset_and_seed.getD 1 0) ≠
      vertex_offset (mC4.edge_offset_and_seed.getD 0 0) := by
  constructor
  · decide
  · decide

/-- C4 amended: evaluate returns -1 iff the int-truncated num_variables
is zero, i.e. iff the vertex offsets decoded from directory entries
chunk+1 and chunk are congruent modulo 2^32 (for offset differences below
2^32 this coincides with offset equality); in every other case the result
is a single non-negative ordinal, never any other negative sentinel. -/
theorem c4_amended_minus_one_iff (S : SpookyModel) (m : mph) (key : List Nat) :
    (get_byte_array S m key = -1 ↔
      vertex_offset (dirGet m.edge_offset_and_seed
          (chunkOfHash (hashOf S m key 0) m.chunk_shift + 1)) % 2 ^ 32 =
        vertex_offset (dirGet m.edge_offset_and_seed
          (chunkOfHash (hashOf S m key 0) m.chunk_shift)) % 2 ^ 32) ∧
    (get_byte_array S m key = -1 ∨ 0 ≤ get_byte_array S m key) := by
  have hg : get_byte_array S m key = evalBody S m (hashOf S m key) := rfl
  constructor
  · rw [hg, evalBody_neg_one_iff]
    unfold nvAt
    rw [toInt32_eq_zero_iff]
    have h1 : vertex_offset (dirGet m.edge_offset_and_seed
        (chunkOfHash (hashOf S m key 0) m.chunk_shift + 1)) < 2 ^ 56 := vertex_offset_lt _
    have h0 : vertex_offset (dirGet m.edge_offset_and_seed
        (chunkOfHash (hashOf S m key 0) m.chunk_shift)) < 2 ^ 56 := vertex_offset_lt _
    constructor <;> intro hh <;> omega
  · rcases eq_or_ne (nvAt m (chunkOfHash (hashOf S m key 0) m.chunk_shift)) 0 with hz | hnz
    · left
      rw [hg]
      exact (evalBody_neg_one_iff S m (hashOf S m key)).2 hz
    · right
      rw [hg]
      exact (evalBody_populated S m (hashOf S m key) hnz).2

/-! ## Claim C3: the loader never fails -/

theorem readBytes_pad (n : Nat) (s : List Nat) (k : Nat) :
    readBytes n (s ++ List.replicate k 0) =
      ((readBytes n s).1, (readBytes n s).2 ++ List.replicate (k - (n - s.length)) 0) := by
  unfold readBytes
  dsimp only
  have h1 : List.take n (s ++ List.replicate k 0) ++
      List.replicate (n - (s ++ List.replicate k 0).length) 0 =
      List.take n s ++ List.replicate (n - s.length) 0 := by
    rw [List.take_append_eq_append_take, List.take_replicate, List.length_append,
      List.length_replicate, List.append_assoc, List.append_replicate_replicate]
    have hc : (n - s.length) ⊓ k + (n - (s.length + k)) = n - s.length := by omega
    rw [hc]
  have h2 : List.drop n (s ++ List.replicate k 0) =
      List.drop n s ++ List.replicate (k - (n - s.length)) 0 := by
    rw [List.drop_append_eq_append_drop, List.drop_replicate]
  rw [h1, h2]

theorem readU64_pad (s : List Nat) (k : Nat) :
    readU64 (s ++ List.replicate k 0) =
      ((readU64 s).1, (readU64 s).2 ++ List.replicate (k - (8 - s.length)) 0) := by
  unfold readU64
  rw [readBytes_pad]

theorem readWords_succ (n : Nat) (s : List Nat) :
    readWords (n + 1) s =
      ((readU64 s).1 :: (readWords n (readU64 s).2).1, (readWords n (readU64 s).2).2) := rfl

theorem readWords_pad : ∀ (n : Nat) (s : List Nat) (k : Nat),
    (readWords n (s ++ List.replicate k 0)).1 = (readWords n s).1 ∧
    ∃ k2 : Nat, (readWords n (s ++ List.replicate k 0)).2 =
      (readWords n s).2 ++ List.replicate k2 0 := by
  intro n
  induction n with
  | zero => intro s k; exact ⟨rfl, k, rfl⟩
  | succ n ih =>
    intro s k
    have h1 := readU64_pad s k
    have hfst : (readU64 (s ++ List.replicate k 0)).1 = (readU64 s).1 := by rw [h1]
    have hsnd : (readU64 (s ++ List.replicate k 0)).2 =
        (readU64 s).2 ++ List.replicate (k - (8 - s.length)) 0 := by rw [h1]
    obtain ⟨ha, k2, hb⟩ := ih (readU64 s).2 (k - (8 - s.length))
    constructor
    · show (readU64 (s ++ List.replicate k 0)).1 ::
        (readWords n (readU64 (s ++ List.replicate k 0)).2).1 = _
      rw [hfst, hsnd, ha, readWords_succ]
    · refine ⟨k2, ?_⟩
      show (readWords n (readU64 (s ++ List.replicate k 0)).2).2 = _
      rw [hsnd, hb, readWords_succ]

/-- C3 amended: load_mph checks neither truncation nor allocation; it
ignores the return value of read, so bytes missing from a truncated
stream behave as the zero fill of the calloc-ed destinations, and a
fully-formed index is always returned.  Zero-padding the stream does not
change the result. -/
theorem c3_amended_load_total (s : List Nat) (k : Nat) :
    load_mph (s ++ List.replicate k 0) = load_mph s := by
  simp only [load_mph]
  have h1 := readU64_pad s k
  rw [h1]
  simp only []
  have h2 := readU64_pad (readU64 s).2 (k - (8 - s.length))
  rw [h2]
  simp only []
  have h3 := readU64_pad (readU64 (readU64 s).2).2
    ((k - (8 - s.length)) - (8 - (readU64 s).2.length))
  rw [h3]
  simp only []
  have h4 := readU64_pad (readU64 (readU64 (readU64 s).2).2).2
    ((k - (8 - s.length)) - (8 - (readU64 s).2.length) -
      (8 - (readU64 (readU64 s).2).2.length))
  rw [h4]
  simp only []
  obtain ⟨h5a, k5, h5b⟩ := readWords_pad (readU64 (readU64 (readU64 (readU64 s).2).2).2).1
    (readU64 (readU64 (readU64 (readU64 s).2).2).2).2
    ((k - (8 - s.length)) - (8 - (readU64 s).2.length) -
      (8 - (readU64 (readU64 s).2).2.length) -
      (8 - (readU64 (readU64 (readU64 s).2).2).2.length))
  rw [h5a, h5b]
  have h6 := readU64_pad
    (readWords (readU64 (readU64 (readU64 (readU64 s).2).2).2).1
      (readU64 (readU64 (readU64 (readU64 s).2).2).2).2).2 k5
  rw [h6]
  simp only []
  obtain ⟨h7a, k7, h7b⟩ := readWords_pad
    (readU64 (readWords (readU64 (readU64 (readU64 (readU64 s).2).2).2).1
      (readU64 (readU64 (readU64 (readU64 s).2).2).2).2).2).1
    (readU64 (readWords (readU64 (readU64 (readU64 (readU64 s).2).2).2).1
      (readU64 (readU64 (readU64 (readU64 s).2).2).2).2).2).2
    (k5 - (8 - (readWords (readU64 (readU64 (readU64 (readU64 s).2).2).2).1
      (readU64 (readU64 (readU64 (readU64 s).2).2).2).2).2.length))
  rw [h7a]

/-- C3 as stated fails: on the empty stream, which is shorter than every
declared field, the spec-contract loader rejects the input but load_mph
returns a complete all-zero index: no error is signalled and an index is
handed to the caller. -/
theorem c3_counterexample :
    loadChecked [] = none ∧
    load_mph [] = ⟨0, 0, 0, 0, [], 0, []⟩ := by
  constructor
  · rfl
  · rfl

/-! ## Claim C1: round-trip permutation -/

theorem triple_to_equation_lt_nv (R : (Fin 4 → Nat) → Nat → Fin 4 → Nat)
    (t : Fin 4 → Nat) (seed : Nat) (nv : Int) (h1 : 1 ≤ nv) (h2 : nv < 2 ^ 31) (i : Fin 3) :
    0 ≤ triple_to_equation R t seed nv i ∧ triple_to_equation R t seed nv i < nv := by
  have hnvU : u64OfInt nv = nv.toNat := by
    unfold u64OfInt
    omega
  have hn1 : 1 ≤ nv.toNat := by omega
  have hn2 : nv.toNat < 2 ^ 64 := by omega
  have hsp := tteWord_spec (R t seed (Fin.castLE (by decide) i)) nv.toNat hn1 hn2
  have hlt31 : tteWord (R t seed (Fin.castLE (by decide) i)) nv.toNat < 2 ^ 31 := by
    have := hsp.2
    omega
  have he : triple_to_equation R t seed nv i =
      toInt32 (tteWord (R t seed (Fin.castLE (by decide) i)) (u64OfInt nv)) := rfl
  rw [he, hnvU, toInt32_of_lt hlt31]
  have := hsp.2
  constructor
  · positivity
  · omega

theorem groupNZ_iff_get2bit (arr : List Nat) (p : Nat) :
    groupNZ arr p = true ↔ get_2bit_value arr p ≠ 0 := by
  unfold groupNZ get_2bit_value
  have e1 : p * 2 / 64 = p / 32 := by omega
  have e2 : p * 2 % 64 = 2 * (p % 32) := by omega
  rw [e1, e2]
  simp [bne_iff_ne]

theorem countP_lt_add_eq {α : Type} (f : α → Nat) (c : Nat) : ∀ l : List α,
    l.countP (fun j => decide (f j < c)) + l.countP (fun j => f j == c) =
      l.countP (fun j => decide (f j ≤ c)) := by
  intro l
  induction l with
  | nil => rfl
  | cons a l ih =>
    simp only [List.countP_cons]
    by_cases h1 : f a < c
    · have h2 : ¬(f a = c) := by omega
      have h3 : f a ≤ c := by omega
      simp [h1, h2, h3]
      omega
    · by_cases h2 : f a = c
      · have h3 : f a ≤ c := by omega
        simp [h1, h2, h3]
        omega
      · have h3 : ¬(f a ≤ c) := by omega
        simp [h1, h2, h3]
        omega

set_option maxHeartbeats 2000000 in
/-- Per-key evaluation: under the in-range side conditions, evaluate
returns the 56-bit offset field of the chunk entry plus the rank of the
selected vertex, which lies inside the chunk's vertex range. -/
theorem eval_key_formula (S : SpookyModel) (m : mph) (key : List Nat)
    (hc31 : chunkNat S m key < 2 ^ 31)
    (hmono : voAtN m (chunkNat S m key) ≤ voAtN m (chunkNat S m key + 1))
    (hdiff : voAtN m (chunkNat S m key + 1) - voAtN m (chunkNat S m key) < 2 ^ 31)
    (hpos : voAtN m (chunkNat S m key) < voAtN m (chunkNat S m key + 1))
    (hv36 : voAtN m (chunkNat S m key + 1) ≤ 2 ^ 36)
    (hw : ∀ w ∈ m.array, w < 2 ^ 64) :
    get_byte_array S m key =
      (((m.edge_offset_and_seed.getD (chunkNat S m key) 0 &&& OFFSET_MASK : Nat) : Int) +
        ((rankSpec (voAtN m (chunkNat S m key)) (asgnOf S m key) m.array : Nat) : Int)) ∧
    voAtN m (chunkNat S m key) ≤ asgnOf S m key ∧
    asgnOf S m key < voAtN m (chunkNat S m key + 1) := by
  have hcn : hashOf S m key 0 >>> m.chunk_shift = chunkNat S m key := rfl
  have hci : chunkOfHash (hashOf S m key 0) m.chunk_shift = ((chunkNat S m key : Nat) : Int) := by
    unfold chunkOfHash
    rw [hcn]
    exact toInt32_of_lt hc31
  have hdir0 : dirGet m.edge_offset_and_seed ((chunkNat S m key : Nat) : Int) =
      m.edge_offset_and_seed.getD (chunkNat S m key) 0 := dirGet_ofNat _ _
  have hcast1 : ((chunkNat S m key : Nat) : Int) + 1 = ((chunkNat S m key + 1 : Nat) : Int) := by
    push_cast
    ring
  have hdir1 : dirGet m.edge_offset_and_seed (((chunkNat S m key : Nat) : Int) + 1) =
      m.edge_offset_and_seed.getD (chunkNat S m key + 1) 0 := by
    rw [hcast1, dirGet_ofNat]
  have hv0 : vertex_offset (dirGet m.edge_offset_and_seed ((chunkNat S m key : Nat) : Int)) =
      voAtN m (chunkNat S m key) := by
    rw [hdir0]
    rfl
  have hv1 : vertex_offset (dirGet m.edge_offset_and_seed (((chunkNat S m key : Nat) : Int) + 1)) =
      voAtN m (chunkNat S m key + 1) := by
    rw [hdir1]
    rfl
  have hv0lt : voAtN m (chunkNat S m key) < 2 ^ 56 := vertex_offset_lt _
  have hv1lt : voAtN m (chunkNat S m key + 1) < 2 ^ 56 := vertex_offset_lt _
  have hnv : nvAt m ((chunkNat S m key : Nat) : Int) =
      ((voAtN m (chunkNat S m key + 1) - voAtN m (chunkNat S m key) : Nat) : Int) := by
    unfold nvAt
    rw [hv0, hv1]
    have harith : (voAtN m (chunkNat S m key + 1) + 2 ^ 64 - voAtN m (chunkNat S m key)) % 2 ^ 64 =
        voAtN m (chunkNat S m key + 1) - voAtN m (chunkNat S m key) := by
      omega
    rw [harith]
    exact toInt32_of_lt hdiff
  have hnz : nvAt m ((chunkNat S m key : Nat) : Int) ≠ 0 := by
    rw [hnv]
    intro hcon
    have hz : voAtN m (chunkNat S m key + 1) - voAtN m (chunkNat S m key) = 0 := by
      exact_mod_cast hcon
    omega
  have h1nv : 1 ≤ nvAt m ((chunkNat S m key : Nat) : Int) := by
    rw [hnv]
    have : 1 ≤ voAtN m (chunkNat S m key + 1) - voAtN m (chunkNat S m key) := by omega
    exact_mod_cast this
  have h2nv : nvAt m ((chunkNat S m key : Nat) : Int) < 2 ^ 31 := by
    rw [hnv]
    exact_mod_cast hdiff
  -- the selected e entry is inside [0, num_variables)
  have helt := triple_to_equation_lt_nv S.shortRehash (hashOf S m key)
    ((dirGet m.edge_offset_and_seed ((chunkNat S m key : Nat) : Int)) &&& NOT_OFFSET_MASK)
    (nvAt m ((chunkNat S m key : Nat) : Int)) h1nv h2nv
    ⟨selAt S m (hashOf S m key) ((chunkNat S m key : Nat) : Int), Nat.mod_lt _ (by decide)⟩
  have heq_e : eAt S m (hashOf S m key) ((chunkNat S m key : Nat) : Int)
      ⟨selAt S m (hashOf S m key) ((chunkNat S m key : Nat) : Int), Nat.mod_lt _ (by decide)⟩ =
      triple_to_equation S.shortRehash (hashOf S m key)
        ((dirGet m.edge_offset_and_seed ((chunkNat S m key : Nat) : Int)) &&& NOT_OFFSET_MASK)
        (nvAt m ((chunkNat S m key : Nat) : Int))
        ⟨selAt S m (hashOf S m key) ((chunkNat S m key : Nat) : Int), Nat.mod_lt _ (by decide)⟩ := rfl
  rw [← heq_e] at helt
  have hasg := asgnAt_eq S m (hashOf S m key) ((chunkNat S m key : Nat) : Int)
  have hasgn_of : asgnOf S m key = asgnAt S m (hashOf S m key) ((chunkNat S m key : Nat) : Int) := by
    unfold asgnOf
    rw [hci]
  -- e.toNat is below num_variables
  have hetn : (eAt S m (hashOf S m key) ((chunkNat S m key : Nat) : Int)
      ⟨selAt S m (hashOf S m key) ((chunkNat S m key : Nat) : Int), Nat.mod_lt _ (by decide)⟩).toNat <
      voAtN m (chunkNat S m key + 1) - voAtN m (chunkNat S m key) := by
    have h2 := helt.2
    rw [hnv] at h2
    omega
  have hbounds : voAtN m (chunkNat S m key) ≤ asgnOf S m key ∧
      asgnOf S m key < voAtN m (chunkNat S m key + 1) := by
    have h1 := hasg.1
    omega
  refine ⟨?_, hbounds⟩
  have hev := evalBody_populated S m (hashOf S m key) (by rw [hci]; exact hnz)
  have hgb : get_byte_array S m key = evalBody S m (hashOf S m key) := rfl
  rw [hgb, hev.1, hci, hdir0]
  have hvo2 : vertex_offset (m.edge_offset_and_seed.getD (chunkNat S m key) 0) =
      voAtN m (chunkNat S m key) := rfl
  rw [hvo2, ← hasgn_of]
  rw [countNonzeroPairs_eq_rankSpec _ _ _ hbounds.1 (by omega) hw]
  push_cast
  ring

/-- Supporting result for C1: on an index satisfying the data-model
invariants of the offline construction (directory coverage of every
reachable chunk, per-chunk non-zero-label count equal to the number of
keys hashed into the chunk, cumulative offset fields, and the sum-mod-3
assignment selecting distinct non-zero-labelled vertices) whose chunk
vertex offsets all stay at or below 2^36 — so that the int block indices
inside count_nonzero_pairs never truncate — evaluate maps every key of
the built set into [0, key_count), with no collisions and full coverage:
a permutation of [0, n).  The offset bound is not implied by the
construction invariants, which is why the unbounded claim fails on the
code (see c1_failing_rank). -/
theorem evaluate_round_trip_permutation_bounded (S : SpookyModel) (m : mph)
    (keys : List (List Nat))
    (hsize : m.size = keys.length)
    (hnodup : keys.Nodup)
    (hwords : ∀ w ∈ m.array, w < 2 ^ 64)
    (hchunk : ∀ k ∈ keys, chunkNat S m k < 2 ^ 31 ∧
      chunkNat S m k + 2 ≤ m.edge_offset_and_seed.length)
    (hmono : ∀ k ∈ keys, voAtN m (chunkNat S m k) ≤ voAtN m (chunkNat S m k + 1) ∧
      voAtN m (chunkNat S m k + 1) - voAtN m (chunkNat S m k) < 2 ^ 31)
    (hv36 : ∀ k ∈ keys, voAtN m (chunkNat S m k + 1) ≤ 2 ^ 36)
    (hcount : ∀ k ∈ keys,
      rankSpec (voAtN m (chunkNat S m k)) (voAtN m (chunkNat S m k + 1)) m.array =
        keys.countP (fun j => chunkNat S m j == chunkNat S m k))
    (hoff : ∀ k ∈ keys, (m.edge_offset_and_seed.getD (chunkNat S m k) 0) &&& OFFSET_MASK =
      keys.countP (fun j => decide (chunkNat S m j < chunkNat S m k)))
    (hnz : ∀ k ∈ keys, get_2bit_value m.array (asgnOf S m k) ≠ 0)
    (hinj : ∀ k ∈ keys, ∀ j ∈ keys, chunkNat S m k = chunkNat S m j →
      asgnOf S m k = asgnOf S m j → k = j) :
    (∀ k ∈ keys, 0 ≤ get_byte_array S m k ∧ get_byte_array S m k < (m.size : Int)) ∧
    (∀ k ∈ keys, ∀ j ∈ keys, get_byte_array S m k = get_byte_array S m j → k = j) ∧
    (∀ v : Nat, v < m.size → ∃ k ∈ keys, get_byte_array S m k = (v : Int)) := by
  have hpos : ∀ k ∈ keys, voAtN m (chunkNat S m k) < voAtN m (chunkNat S m k + 1) := by
    intro k hk
    have hcnt := hcount k hk
    have hge1 : 0 < keys.countP (fun j => chunkNat S m j == chunkNat S m k) := by
      rw [List.countP_pos_iff]
      exact ⟨k, hk, by simp⟩
    by_contra hle
    push_neg at hle
    have := rankSpec_le_sub (voAtN m (chunkNat S m k)) (voAtN m (chunkNat S m k + 1)) m.array
    omega
  have hform : ∀ k ∈ keys, get_byte_array S m k =
      (((m.edge_offset_and_seed.getD (chunkNat S m k) 0 &&& OFFSET_MASK : Nat) : Int) +
        ((rankSpec (voAtN m (chunkNat S m k)) (asgnOf S m k) m.array : Nat) : Int)) ∧
      voAtN m (chunkNat S m k) ≤ asgnOf S m k ∧
      asgnOf S m k < voAtN m (chunkNat S m k + 1) := fun k hk =>
    eval_key_formula S m k (hchunk k hk).1 (hmono k hk).1 (hmono k hk).2 (hpos k hk)
      (hv36 k hk) hwords
  have hrk : ∀ k ∈ keys, rankSpec (voAtN m (chunkNat S m k)) (asgnOf S m k) m.array <
      keys.countP (fun j => chunkNat S m j == chunkNat S m k) := by
    intro k hk
    rw [← hcount k hk]
    exact rankSpec_lt_of_mem _ _ _ _ (hform k hk).2.1 (hform k hk).2.2
      ((groupNZ_iff_get2bit m.array (asgnOf S m k)).2 (hnz k hk))
  have hval : ∀ k ∈ keys, get_byte_array S m k =
      ((keys.countP (fun j => decide (chunkNat S m j < chunkNat S m k)) +
        rankSpec (voAtN m (chunkNat S m k)) (asgnOf S m k) m.array : Nat) : Int) := by
    intro k hk
    rw [(hform k hk).1, hoff k hk]
    push_cast
    ring
  have hin : ∀ k ∈ keys, 0 ≤ get_byte_array S m k ∧ get_byte_array S m k < (m.size : Int) := by
    intro k hk
    rw [hval k hk]
    constructor
    · positivity
    · have hmerge := countP_lt_add_eq (fun j => chunkNat S m j) (chunkNat S m k) keys
      have hle2 : keys.countP (fun j => decide (chunkNat S m j ≤ chunkNat S m k)) ≤ keys.length :=
        List.countP_le_length _
      have hr := hrk k hk
      have hlt : keys.countP (fun j => decide (chunkNat S m j < chunkNat S m k)) +
          rankSpec (voAtN m (chunkNat S m k)) (asgnOf S m k) m.array < keys.length := by
        omega
      rw [hsize]
      exact_mod_cast hlt
  have hinj2 : ∀ k ∈ keys, ∀ j ∈ keys, get_byte_array S m k = get_byte_array S m j → k = j := by
    intro k hk j hj heq
    rw [hval k hk, hval j hj] at heq
    have heqN : keys.countP (fun x => decide (chunkNat S m x < chunkNat S m k)) +
        rankSpec (voAtN m (chunkNat S m k)) (asgnOf S m k) m.array =
        keys.countP (fun x => decide (chunkNat S m x < chunkNat S m j)) +
        rankSpec (voAtN m (chunkNat S m j)) (asgnOf S m j) m.array := by
      exact_mod_cast heq
    rcases Nat.lt_trichotomy (chunkNat S m k) (chunkNat S m j) with hcc | hcc | hcc
    · exfalso
      have hmerge := countP_lt_add_eq (fun x => chunkNat S m x) (chunkNat S m k) keys
      have hmono2 : keys.countP (fun x => decide (chunkNat S m x ≤ chunkNat S m k)) ≤
          keys.countP (fun x => decide (chunkNat S m x < chunkNat S m j)) := by
        apply List.countP_mono_left
        intro x _ hx
        simp only [decide_eq_true_eq] at hx ⊢
        omega
      have hr := hrk k hk
      omega
    · apply hinj k hk j hj hcc
      have hoffeq : keys.countP (fun x => decide (chunkNat S m x < chunkNat S m k)) =
          keys.countP (fun x => decide (chunkNat S m x < chunkNat S m j)) := by
        rw [hcc]
      have hreq : rankSpec (voAtN m (chunkNat S m k)) (asgnOf S m k) m.array =
          rankSpec (voAtN m (chunkNat S m j)) (asgnOf S m j) m.array := by
        omega
      rw [← hcc] at hreq
      rcases Nat.lt_trichotomy (asgnOf S m k) (asgnOf S m j) with ha | ha | ha
      · exfalso
        have := rankSpec_lt_of_mem (voAtN m (chunkNat S m k)) (asgnOf S m k) (asgnOf S m j)
          m.array (hform k hk).2.1 ha ((groupNZ_iff_get2bit _ _).2 (hnz k hk))
        omega
      · exact ha
      · exfalso
        have hj1 : voAtN m (chunkNat S m k) ≤ asgnOf S m j := by
          rw [hcc]
          exact (hform j hj).2.1
        have := rankSpec_lt_of_mem (voAtN m (chunkNat S m k)) (asgnOf S m j) (asgnOf S m k)
          m.array hj1 ha ((groupNZ_iff_get2bit _ _).2 (hnz j hj))
        omega
    · exfalso
      have hmerge := countP_lt_add_eq (fun x => chunkNat S m x) (chunkNat S m j) keys
      have hmono2 : keys.countP (fun x => decide (chunkNat S m x ≤ chunkNat S m j)) ≤
          keys.countP (fun x => decide (chunkNat S m x < chunkNat S m k)) := by
        apply List.countP_mono_left
        intro x _ hx
        simp only [decide_eq_true_eq] at hx ⊢
        omega
      have hr := hrk j hj
      omega
  refine ⟨hin, hinj2, ?_⟩
  intro v hv
  have hmapnd : (keys.map (fun k => get_byte_array S m k)).Nodup :=
    List.Nodup.map_on (fun x hx y hy hxy => hinj2 x hx y hy hxy) hnodup
  have hsub : (keys.map (fun k => get_byte_array S m k)).toFinset ⊆
      (Finset.range m.size).image (fun n : Nat => (n : Int)) := by
    intro x hx
    rw [List.mem_toFinset, List.mem_map] at hx
    obtain ⟨k, hk, hfk⟩ := hx
    have hb := hin k hk
    rw [hfk] at hb
    rw [Finset.mem_image]
    refine ⟨x.toNat, ?_, ?_⟩
    · rw [Finset.mem_range]
      omega
    · omega
  have hcard1 : (keys.map (fun k => get_byte_array S m k)).toFinset.card = keys.length := by
    rw [List.toFinset_card_of_nodup hmapnd, List.length_map]
  have hcard2 : ((Finset.range m.size).image (fun n : Nat => (n : Int))).card = m.size := by
    rw [Finset.card_image_of_injective _ (fun a b hab => by exact_mod_cast hab), Finset.card_range]
  have heqset : (keys.map (fun k => get_byte_array S m k)).toFinset =
      (Finset.range m.size).image (fun n : Nat => (n : Int)) := by
    apply Finset.eq_of_subset_of_card_le hsub
    rw [hcard1, hcard2, hsize]
  have hmem : ((v : Int)) ∈ (keys.map (fun k => get_byte_array S m k)).toFinset := by
    rw [heqset, Finset.mem_image]
    exact ⟨v, Finset.mem_range.2 hv, rfl⟩
  rw [List.mem_toFinset, List.mem_map] at hmem
  obtain ⟨k, hk, hfk⟩ := hmem
  exact ⟨k, hk, hfk⟩

/-- Instance of the bounded round trip: a concrete single-chunk index
over two keys on which evaluate yields the permutation [0, 1] of [0, 2). -/
theorem evaluate_round_trip_instance :
    (∀ k ∈ keysW1, 0 ≤ get_byte_array SW1 mW1 k ∧ get_byte_array SW1 mW1 k < (mW1.size : Int)) ∧
    (∀ k ∈ keysW1, ∀ j ∈ keysW1, get_byte_array SW1 mW1 k = get_byte_array SW1 mW1 j → k = j) ∧
    (∀ v : Nat, v < mW1.size → ∃ k ∈ keysW1, get_byte_array SW1 mW1 k = (v : Int)) :=
  evaluate_round_trip_permutation_bounded SW1 mW1 keysW1 (by decide) (by decide) (by decide)
    (by decide) (by decide) (by decide) (by decide) (by decide) (by decide) (by decide)

/-- C1: the permutation round trip fails on the code because
count_nonzero_pairs keeps its block indices in C ints.  The construction
admits indices whose cumulative vertex offsets reach 2^36 label
positions; at that scale the rank the evaluator takes over a chunk
starting at vertex 0 of a 2^31-word label array is computed over a range
such as [0, 2^36), where the code returns 0 (end_block truncates to the
negative int -2^31 and the interior loop never runs) although 2^31
labels in the range are non-zero — so evaluate repeats ordinals instead
of producing a permutation.  This theorem evaluates the code at that
failing rank input. -/
theorem c1_failing_rank :
    countNonzeroPairs 0 (2 ^ 36) (List.replicate (2 ^ 31) 3) = 0 ∧
    rankSpec 0 (2 ^ 36) (List.replicate (2 ^ 31) 3) ≠ 0 :=
  ⟨cnp_trunc_from_zero _,
   rank_replicate_ne_zero (2 ^ 31) 3 (2 ^ 36) (by norm_num) (by norm_num) (by decide)⟩

end MphC
